import Mathlib

/-!
Verification of the evidence-grounded report synthesis pipeline of the
patent-history analyzer (src/app.py, src/reporting.py, src/report_guardrails.py,
src/ops_extractor.py, src/prior_art_correlator.py, src/api/openrouter_llm_client.py).

Python strings are modelled as `List Char`; Python dictionaries with optional
keys are modelled as structures with `Option` fields (an absent key and a key
stored with value `None` are both modelled as `none`, matching how the code
only ever reads these fields through `dict.get` with a default).  External
effects (the HTTP text-generation call, the `dateutil` fuzzy parser, the
current year) are passed in as explicit parameters.
-/

set_option maxHeartbeats 1000000

/-- Characters of a string literal, used to write `List Char` constants. -/
def strL (s : String) : List Char := s.data

/-! ### Basic string machinery (Python `in`, `startswith`, `str.replace`, `str.strip`) -/

/-- Boolean prefix test on character lists (Python `str.startswith`). -/
def isPrefixB : List Char → List Char → Bool
  | [], _ => true
  | _ :: _, [] => false
  | a :: as, b :: bs => a = b && isPrefixB as bs

/-- Boolean suffix test on character lists (Python `str.endswith`). -/
def isSuffixB (s : List Char) : List Char → Bool
  | [] => s = []
  | c :: rest => s = c :: rest || isSuffixB s rest

/-- Boolean substring test on character lists (Python `in` on strings). -/
def containsSub (p : List Char) : List Char → Bool
  | [] => p = []
  | c :: rest => isPrefixB p (c :: rest) || containsSub p rest

/-- Python `str.replace(old, new)`: replace all non-overlapping occurrences,
scanning left to right and continuing after each replacement.  The `old = []`
guard only protects termination; every call site uses a non-empty `old`. -/
def pyReplace (old new : List Char) (l : List Char) : List Char :=
  if old = [] then l
  else
    match l with
    | [] => []
    | c :: rest =>
      if isPrefixB old (c :: rest) then new ++ pyReplace old new ((c :: rest).drop old.length)
      else c :: pyReplace old new rest
termination_by l.length
decreasing_by
  · simp only [List.length_cons, List.length_drop]
    have : 0 < old.length := List.length_pos.mpr (by assumption)
    omega
  · simp [Nat.lt_succ_self]

/-- Python `str.strip()`: remove leading and trailing whitespace. -/
def pyStrip (l : List Char) : List Char :=
  ((l.dropWhile Char.isWhitespace).reverse.dropWhile Char.isWhitespace).reverse

/-- Python `sep.join(parts)`. -/
def joinSep (sep : List Char) : List (List Char) → List Char
  | [] => []
  | [w] => w
  | w :: ws => w ++ sep ++ joinSep sep ws

/-- Fuel-indexed splitting loop; the fuel only drives structural recursion
and is always at least the length of the remaining input. -/
def pySplitWsFuel : Nat → List Char → List (List Char)
  | 0, _ => []
  | _ + 1, [] => []
  | fuel + 1, c :: rest =>
    if c.isWhitespace then pySplitWsFuel fuel rest
    else ((c :: rest).takeWhile (fun d => !d.isWhitespace)) ::
      pySplitWsFuel fuel ((c :: rest).dropWhile (fun d => !d.isWhitespace))

/-- Python `str.split()` with no argument: split on runs of whitespace,
dropping empty words. -/
def pySplitWs (l : List Char) : List (List Char) :=
  pySplitWsFuel l.length l

/-- The word-deduplication loop of `deduplicate_line` (src/app.py 1471-1480):
drop a word equal to the immediately preceding kept word. -/
def dedupAdjacent : Option (List Char) → List (List Char) → List (List Char)
  | _, [] => []
  | prev, w :: ws =>
    if some w = prev then dedupAdjacent prev ws
    else w :: dedupAdjacent (some w) ws

/-- `deduplicate_line` (src/app.py 1471-1480): split a line into
whitespace-separated words, drop immediately-repeated words, re-join with
single spaces. -/
def deduplicate_line (l : List Char) : List Char :=
  joinSep [' '] (dedupAjoin l)
where
  /-- words of the line after adjacent deduplication -/
  dedupAjoin (l : List Char) : List (List Char) := dedupAdjacent none (pySplitWs l)

/-! ### Decimal rendering of naturals (Python f-string interpolation of ints) -/

/-- One decimal digit as a character. -/
def digitChar : Nat → Char
  | 0 => '0' | 1 => '1' | 2 => '2' | 3 => '3' | 4 => '4'
  | 5 => '5' | 6 => '6' | 7 => '7' | 8 => '8' | 9 => '9'
  | _ => '*'

/-- Fuel-indexed digit expansion; the fuel is always more than the number. -/
def natDigitsFuel : Nat → Nat → List Char
  | 0, _ => []
  | fuel + 1, n =>
    if n < 10 then [digitChar n]
    else natDigitsFuel fuel (n / 10) ++ [digitChar (n % 10)]

/-- Decimal digits of a natural number, most significant first
(Python `str(n)` for a non-negative int). -/
def natDigits (n : Nat) : List Char :=
  natDigitsFuel (n + 1) n

/-- Numeric value of a decimal digit character. -/
def digitVal (c : Char) : Nat :=
  if c = '0' then 0 else if c = '1' then 1 else if c = '2' then 2
  else if c = '3' then 3 else if c = '4' then 4 else if c = '5' then 5
  else if c = '6' then 6 else if c = '7' then 7 else if c = '8' then 8
  else if c = '9' then 9 else 0

/-- Value of a decimal digit string. -/
def digitsToNat (l : List Char) : Nat :=
  l.foldl (fun a c => 10 * a + digitVal c) 0

/-- Left-pad a digit string with zeros to the given width
(Python `strftime` zero padding). -/
def padZeros (w : Nat) (l : List Char) : List Char :=
  List.replicate (w - l.length) '0' ++ l

/-! ### Evidence tokens and the regex scanner
`re.findall(r'\[(EVT#\d+|CIT#\d+|CLM#\d+|DSG#\d+)\]', ...)` used throughout
src/app.py is modelled by a character-level scanner over `List Char`. -/

/-- The four evidence-token types. -/
inductive TokType
  | evt | cit | clm | dsg
deriving DecidableEq, Repr

/-- An evidence token: its type and the digit string between `#` and `]`.
The digits are kept as written, so `EVT#01` and `EVT#1` are distinct tokens,
exactly as distinct Python dictionary keys. -/
structure Tok where
  ty : TokType
  digits : List Char
deriving DecidableEq, Repr

/-- Recognize one of the four token-type tags. -/
def tokTypeOf (a b c : Char) : Option TokType :=
  if a = 'E' ∧ b = 'V' ∧ c = 'T' then some TokType.evt
  else if a = 'C' ∧ b = 'I' ∧ c = 'T' then some TokType.cit
  else if a = 'C' ∧ b = 'L' ∧ c = 'M' then some TokType.clm
  else if a = 'D' ∧ b = 'S' ∧ c = 'G' then some TokType.dsg
  else none

/-- Try to parse `TYPE#digits]` at the head of the input (the part of the
token regex after its opening bracket).  Returns the token and the rest of
the input, which is strictly shorter than the input. -/
def parseTokenTail : (l : List Char) →
    Option (Tok × { r : List Char // r.length < l.length })
  | t1 :: t2 :: t3 :: '#' :: r2 =>
    match tokTypeOf t1 t2 t3 with
    | none => none
    | some ty =>
      let ds := r2.takeWhile Char.isDigit
      if ds = [] then none
      else
        match hr : r2.dropWhile Char.isDigit with
        | ']' :: r4 =>
          some (⟨ty, ds⟩, ⟨r4, by
            have h1 : (r2.dropWhile Char.isDigit).length ≤ r2.length :=
              (List.dropWhile_suffix Char.isDigit).length_le
            rw [hr] at h1
            simp only [List.length_cons] at h1 ⊢
            omega⟩)
        | _ => none
  | _ => none

/-- Fuel-indexed scanning loop; the fuel always dominates the length of the
remaining input, so the scan never runs out early. -/
def findTokensFuel : Nat → List Char → List Tok
  | 0, _ => []
  | _ + 1, [] => []
  | fuel + 1, c :: rest =>
    if c = '[' then
      match parseTokenTail rest with
      | some (t, r) => t :: findTokensFuel fuel r.1
      | none => findTokensFuel fuel rest
    else findTokensFuel fuel rest

/-- All evidence tokens in a line, in order of occurrence: the scanner for
`re.findall(r'\[(EVT#\d+|CIT#\d+|CLM#\d+|DSG#\d+)\]', line)`. -/
def findTokens (l : List Char) : List Tok :=
  findTokensFuel l.length l

/-- Boolean membership of a token in a list of token-index keys
(Python `tok in token_index`). -/
def tokMemB (t : Tok) : List Tok → Bool
  | [] => false
  | k :: ks => t = k || tokMemB t ks

/-! ### Placeholder and marker constants -/

/-- The placeholder-prefix checked by the final filter (src/app.py 1448). -/
def omittedMark : List Char := strL "(Omitted"

/-- The full placeholder literal of the prompts and of reporting.py. -/
def omittedFullMark : List Char := strL "(Omitted pending source)"

/-- Missing-citation marker. -/
def missingMark : List Char := strL "[MISSING]"

/-- Invalid-token marker prefix. -/
def invalidMark : List Char := strL "[INVALID_"

/-- The final per-section line filter of `main` (src/app.py 1443-1465):
skip leftover placeholders and markers, require exactly one evidence token,
require the token to be a key of the token index, and drop exact duplicate
lines.  `seen` is the accumulator of already-kept lines. -/
def cleanLinesLoop (tokenKeys : List Tok) : List (List Char) → List (List Char) → List (List Char)
  | [], _ => []
  | ln :: rest, seen =>
    if containsSub omittedMark ln then cleanLinesLoop tokenKeys rest seen
    else if containsSub missingMark ln then cleanLinesLoop tokenKeys rest seen
    else if containsSub invalidMark ln then cleanLinesLoop tokenKeys rest seen
    else
      match findTokens ln with
      | [] => cleanLinesLoop tokenKeys rest seen
      | t :: ts =>
        if ts ≠ [] then cleanLinesLoop tokenKeys rest seen
        else if ¬ tokMemB t tokenKeys then cleanLinesLoop tokenKeys rest seen
        else if ln ∈ seen then cleanLinesLoop tokenKeys rest seen
        else ln :: cleanLinesLoop tokenKeys rest (ln :: seen)

/-- Entry point of the final per-section line filter (src/app.py 1443-1465). -/
def clean_lines (lines : List (List Char)) (tokenKeys : List Tok) : List (List Char) :=
  cleanLinesLoop tokenKeys lines []

/-! ### Generation adapters (src/prior_art_correlator.py `query_llm`,
src/api/openrouter_llm_client.py `analyze_text`)
The outcome of the HTTP request is passed in as an `Except` value:
`Except.ok content` is a well-formed response, `Except.error e` is any
request failure (network error, HTTP error status, timeout, malformed
body), where `e` is the text of the raised exception. -/

/-- Sentinel returned by `query_llm` when `OPENROUTER_API_KEY` is unset. -/
def llmNotAvailableMsg : List Char :=
  strL "LLM analysis not available - API key not found"

/-- `PriorArtCorrelator.query_llm` (src/prior_art_correlator.py 137-174). -/
def query_llm (apiKey : Option (List Char))
    (net : Except (List Char) (List Char)) : List Char :=
  match apiKey with
  | none => llmNotAvailableMsg
  | some _ =>
    match net with
    | Except.ok content => content
    | Except.error e => strL "Analysis failed: " ++ e

/-- `OpenRouterClient.analyze_text` (src/api/openrouter_llm_client.py 16-30):
re-raises every request failure as a new exception. -/
def analyze_text (net : Except (List Char) (List Char)) :
    Except (List Char) (List Char) :=
  match net with
  | Except.ok c => Except.ok c
  | Except.error e => Except.error (strL "OpenRouter API request failed: " ++ e)

/-! ### Date normalization (src/app.py `normalize_date_to_iso`,
src/ops_extractor.py `_norm_date`) -/

/-- A parsed calendar date (the fields of a Python `datetime` this code reads). -/
structure PDate where
  year : Nat
  month : Nat
  day : Nat
deriving DecidableEq, Repr

/-- Gregorian leap-year rule, as implemented by `datetime`. -/
def isLeapYear (y : Nat) : Bool :=
  y % 4 = 0 && (y % 100 ≠ 0 || y % 400 = 0)

/-- Days in a month, as validated by `datetime.strptime`. -/
def daysInMonth (y m : Nat) : Nat :=
  if m = 2 then (if isLeapYear y then 29 else 28)
  else if m = 4 ∨ m = 6 ∨ m = 9 ∨ m = 11 then 30
  else 31

/-- `re.fullmatch(r'\d蜵8蜶', s)` — the strict eight-digit date shape.
(The quantifier braces of the regex are written here with lenticular
brackets to keep this comment plain text.) -/
def is8Digits (s : List Char) : Bool :=
  s.length = 8 && s.all Char.isDigit

/-- `datetime.strptime(s, "%Y%m%d")` on an eight-digit string: splits into
year, month, day and validates them (raising, i.e. `none`, on an invalid
calendar date; `datetime` years run 1..9999). -/
def parse_yyyymmdd (s : List Char) : Option PDate :=
  if is8Digits s then
    let y := digitsToNat (s.take 4)
    let m := digitsToNat ((s.drop 4).take 2)
    let d := digitsToNat (s.drop 6)
    if 1 ≤ y ∧ y ≤ 9999 ∧ 1 ≤ m ∧ m ≤ 12 ∧ 1 ≤ d ∧ d ≤ daysInMonth y m then
      some ⟨y, m, d⟩
    else none
  else none

/-- `dt.strftime("%Y-%m-%d")`. -/
def formatIsoDate (dt : PDate) : List Char :=
  padZeros 4 (natDigits dt.year) ++ '-' ::
    (padZeros 2 (natDigits dt.month) ++ '-' :: padZeros 2 (natDigits dt.day))

/-- `normalize_date_to_iso` (src/app.py 395-413): `none` models both a falsy
input and the `except` path.  `fuzzy` is the external
`dateutil.parser.parse(s, fuzzy=True)`, `none` meaning it raised. -/
def normalize_date_to_iso (nowYear : Nat) (fuzzy : List Char → Option PDate)
    (raw : Option (List Char)) : Option PDate :=
  match raw with
  | none => none
  | some s0 =>
    if s0 = [] then none
    else
      let s := pyStrip s0
      match (if is8Digits s then parse_yyyymmdd s else fuzzy s) with
      | none => none
      | some dt =>
        if dt.year < 1900 ∨ dt.year > nowYear + 1 then none else some dt

/-- `_norm_date` (src/ops_extractor.py 10-16): strict eight-digit reshaping
only, no validation, no range check, no fuzzy fallback. -/
def _norm_date (d : Option (List Char)) : Option (List Char) :=
  match d with
  | none => none
  | some s0 =>
    if s0 = [] then none
    else
      let s := pyStrip s0
      if s.length = 8 ∧ s.all Char.isDigit then
        some (s.take 4 ++ '-' :: ((s.drop 4).take 2 ++ '-' :: s.drop 6))
      else none

/-! ### Extracted entities (the dictionaries of the `extract` object) -/

/-- An extracted legal event dictionary. -/
structure EventD where
  date : Option (List Char)
  code : Option (List Char)
  desc : Option (List Char)
  effects : Option (List (List Char))
  path : Option (List Char)
deriving DecidableEq, Repr

/-- An extracted citation dictionary (the simplified citations built in
`main`, src/app.py 988-999). -/
structure CitationD where
  id : Option (List Char)
  kind : Option (List Char)
  path : Option (List Char)
  closest_limits : Option (List Char)
  limitations : Option (List Char)
  workaround : Option (List Char)
  tokenIdx : Option Nat
deriving DecidableEq, Repr

/-- An extracted claim dictionary. -/
structure ClaimD where
  claim_no : Option Int
  text : Option (List Char)
  path : Option (List Char)
deriving DecidableEq, Repr

/-- An extracted designation dictionary. -/
structure DesignationD where
  path : Option (List Char)
deriving DecidableEq, Repr

/-- The `extract` dictionary handed to the token-index builder. -/
structure Extract where
  events : List EventD
  citations : List CitationD
  claims : List ClaimD
  designations : List DesignationD
deriving DecidableEq, Repr

/-- Python `a or b` for an optional string `a` with default `b`
(`None` and the empty string are falsy). -/
def pyOrStr (a : Option (List Char)) (b : List Char) : List Char :=
  match a with
  | some s => if s = [] then b else s
  | none => b

/-- Python `a or b` for an optional int `a` (`None` and `0` are falsy). -/
def pyOrNat (a : Option Nat) (b : Nat) : Nat :=
  match a with
  | some 0 => b
  | some n => n
  | none => b

/-! ### Event extraction of src/ops_extractor.py `to_extract` (legal events) -/

/-- A raw `ops:legal` node as read by `to_extract`: the `@code`/`code`,
`@date`/`date` and `@desc`/`desc` alternatives are collapsed into one
optional field each. -/
structure RawLegal where
  code : Option (List Char)
  date : Option (List Char)
  desc : Option (List Char)
deriving DecidableEq, Repr

/-- `EVENT_EFFECTS` (src/ops_extractor.py 4-8). -/
def EVENT_EFFECTS_find (code : List Char) : Option (List (List Char)) :=
  if code = strL "AK" then some [strL "designation_recorded"]
  else if code = strL "PG25" then some [strL "lapse"]
  else if code = strL "INTG" then some [strL "grant"]
  else none

/-- Inner loop of `to_extract` over the `ops:legal` events of one family
member (src/ops_extractor.py 96-116). -/
def to_extract_member (mIdx : Nat) : Nat → List RawLegal → List EventD
  | _, [] => []
  | lIdx, ev :: rest =>
    let code := pyOrStr ev.code []
    { date := _norm_date ev.date,
      code := some code,
      desc := ev.desc,
      effects := some ((EVENT_EFFECTS_find code).getD [strL "unknown"]),
      path := some (strL "/legal/ops:world-patent-data/ops:patent-family/ops:family-member["
        ++ natDigits mIdx ++ strL "]/ops:legal[" ++ natDigits lIdx ++ strL "]") }
      :: to_extract_member mIdx (lIdx + 1) rest

/-- Outer loop of `to_extract` over the family members. -/
def to_extract_events : Nat → List (List RawLegal) → List EventD
  | _, [] => []
  | mIdx, m :: rest => to_extract_member mIdx 0 m ++ to_extract_events (mIdx + 1) rest

/-! ### HTML escaping (src/app.py `render_to_html` / src/reporting.py
`render_to_html`) -/

/-- Per-character image of `html.escape` (quote=True) followed by the
newline-to-break substitution, as applied by the `render_to_html` of
src/app.py 143-148.  The sequential `str.replace` chain of the source equals
this character-wise map because no replacement string contains a character
replaced by a later step. -/
def escCharApp (c : Char) : List Char :=
  if c = '&' then strL "&amp;"
  else if c = '<' then strL "&lt;"
  else if c = '>' then strL "&gt;"
  else if c = '"' then strL "&quot;"
  else if c = Char.ofNat 39 then strL "&#x27;"
  else if c = '\n' then strL "<br>"
  else [c]

/-- Per-character image of the escaping chain of the `render_to_html` of
src/reporting.py 37-49 (which does not escape the single quote). -/
def escCharRep (c : Char) : List Char :=
  if c = '&' then strL "&amp;"
  else if c = '<' then strL "&lt;"
  else if c = '>' then strL "&gt;"
  else if c = '"' then strL "&quot;"
  else if c = '\n' then strL "<br>"
  else [c]

/-- `render_to_html` (src/app.py 143-148), the definition actually used by
the report path: escape and turn newlines into breaks, with no paragraph
wrapper and no empty-input guard. -/
def render_to_html (l : List Char) : List Char :=
  l.flatMap escCharApp

/-- `render_to_html` (src/reporting.py 37-49): empty for falsy input,
otherwise the escaped text wrapped in a paragraph element. -/
def reporting_render_to_html (l : List Char) : List Char :=
  if l = [] then []
  else strL "<p>" ++ l.flatMap escCharRep ++ strL "</p>"

/-! ### Jurisdiction wording substitution -/

/-- The forbidden word. -/
def epTarget : List Char := strL "estoppel"

/-- The approved substitute phrase. -/
def epReplacement : List Char := strL "prosecution interpretation"

/-- `sanitize_ep_language` as defined in src/app.py 275-278 — the definition
that is in scope in `main` (it shadows the import from report_guardrails):
a plain case-sensitive `str.replace`. -/
def sanitize_ep_language (text : List Char) (jurisdiction : List Char) : List Char :=
  if jurisdiction = strL "EP" then pyReplace epTarget epReplacement text
  else text

/-- Python `\w` on the characters this code handles. -/
def wordCharB (c : Char) : Bool :=
  c.isAlphanum || c = '_'

/-- Case-insensitive prefix test against a lowercase pattern. -/
def ciPrefixB : List Char → List Char → Bool
  | [], _ => true
  | _ :: _, [] => false
  | a :: as, b :: bs => a = b.toLower && ciPrefixB as bs

/-- Word-boundary test after the first `n` characters. -/
def wwBoundaryAfter (n : Nat) (l : List Char) : Bool :=
  match l.drop n with
  | [] => true
  | d :: _ => ¬ wordCharB d

/-- Scanner for `re.sub(r'\bestoppel\b', repl, text, flags=re.IGNORECASE)`
(src/report_guardrails.py 32-40).  `prevWord` says whether the previous
character of the original text is a word character; after a match the
previous character is the final matched letter, hence a word character. -/
def wwSubAux (prevWord : Bool) : List Char → List Char
  | [] => []
  | c :: rest =>
    if ¬ prevWord ∧ ciPrefixB epTarget (c :: rest) = true
        ∧ wwBoundaryAfter 8 (c :: rest) = true then
      epReplacement ++ wwSubAux true ((c :: rest).drop 8)
    else c :: wwSubAux (wordCharB c) rest
termination_by l => l.length
decreasing_by
  · simp only [List.length_cons, List.length_drop]
    omega
  · simp [Nat.lt_succ_self]

/-- `sanitize_ep_language` of src/report_guardrails.py 32-40: the
case-insensitive whole-word variant (shadowed in `main` by the app-level
definition above). -/
def sanitize_ep_language_guardrails (text : List Char) (jurisdiction : List Char) :
    List Char :=
  if text = [] then text
  else if jurisdiction ≠ [] ∧ jurisdiction.map Char.toUpper = strL "EP" then
    wwSubAux false text
  else text

/-! ### Event normalization (src/app.py `EVENT_CODE_MAPPING`, `normalize_event`) -/

/-- `EVENT_CODE_MAPPING` (src/app.py 20-29): description and effect tags per
legal-status code. -/
def EVENT_CODE_MAPPING_find (code : List Char) :
    Option ((List Char) × List (List Char)) :=
  if code = strL "17P" then
    some (strL "examination request filed", [strL "examination_requested"])
  else if code = strL "INTG" then
    some (strL "intention to grant announced", [strL "grant_intended"])
  else if code = strL "26N" then
    some (strL "no opposition filed", [strL "no_opposition"])
  else if code = strL "GBPC" then
    some (strL "patent ceased in GB due to non-payment",
      [strL "lapse_national", strL "scope_narrowed"])
  else if code = strL "OPP" then
    some (strL "opposition filed", [strL "opposition"])
  else if code = strL "LAPSE" then
    some (strL "patent lapsed", [strL "lapse_national"])
  else if code = strL "CEASED" then
    some (strL "patent ceased", [strL "lapse_national"])
  else if code = strL "GRANT" then
    some (strL "patent granted", [strL "grant"])
  else none

/-- `normalize_event` (src/app.py 31-50), acting on a copy of the event. -/
def normalize_event (nowYear : Nat) (fuzzy : List Char → Option PDate)
    (e : EventD) : EventD :=
  let code := (pyStrip (e.code.getD [])).map Char.toUpper
  let e1 :=
    match EVENT_CODE_MAPPING_find code with
    | some (desc, effs) =>
      { e with code := some code, effects := some effs, desc := some desc }
    | none =>
      if e.effects = none ∨ e.effects = some [] ∨ e.effects = some [strL "unknown"] then
        let newEffs :=
          if code = [] then [strL "unknown"]
          else [strL "unmapped_" ++ code.map Char.toLower]
        { e with effects := some newEffs }
      else e
  match e1.date with
  | none => e1
  | some d =>
    if d = [] then e1
    else
      match normalize_date_to_iso nowYear fuzzy (some d) with
      | some dt => { e1 with date := some (formatIsoDate dt) }
      | none => e1

/-! ### Stable sorting (Python `sorted`)
Python `sorted` is specified to be stable; a stable sort with respect to a
total preorder is unique, so the stable insertion sort below computes exactly
the list Python produces. -/

/-- Insert `x` before the first element `y` with `le x y`; for equal keys
`x` (the originally earlier element) stays first, giving stability. -/
def insertOrd (le : α → α → Bool) (x : α) : List α → List α
  | [] => [x]
  | y :: ys => if le x y then x :: y :: ys else y :: insertOrd le x ys

/-- Stable insertion sort. -/
def insSort (le : α → α → Bool) : List α → List α
  | [] => []
  | x :: xs => insertOrd le x (insSort le xs)

/-- Lexicographic strict order on character lists by code point
(Python string comparison). -/
def strLtB : List Char → List Char → Bool
  | [], [] => false
  | [], _ :: _ => true
  | _ :: _, [] => false
  | a :: as, b :: bs =>
    if a.toNat < b.toNat then true
    else if b.toNat < a.toNat then false
    else strLtB as bs

/-- Non-strict string order. -/
def strLeB (a b : List Char) : Bool := ¬ strLtB b a

/-! ### Top pivotal events (src/app.py `render_top_pivotal_events`, 280-334) -/

/-- The effect-tag priority table (src/app.py 288-299). -/
def pivotPriority (eff : List Char) : Nat :=
  if eff = strL "grant" then 5
  else if eff = strL "grant_intended" then 4
  else if eff = strL "no_opposition" then 4
  else if eff = strL "opposition" then 3
  else if eff = strL "scope_narrowed" then 2
  else if eff = strL "lapse_national" then 3
  else if eff = strL "examination_requested" then 1
  else if eff = strL "term_changed" then 2
  else if eff = strL "designation_recorded" then 1
  else 0

/-- `score(e)` (src/app.py 301-305): the maximum effect priority
(`max(..., default=0)`). -/
def pivotScore (e : EventD) : Nat :=
  ((e.effects.getD []).map pivotPriority).foldl max 0

/-- The sort key of the priority pass: `(score(e)[0], e.get("date", ""))`. -/
def pivotKey (e : EventD) : Nat × List Char :=
  (pivotScore e, e.date.getD [])

/-- Key comparison for the descending priority sort with most-recent-date
tie break: `a` may precede `b` iff the key of `b` is at most the key of `a`. -/
def pivotDescLe (a b : EventD) : Bool :=
  let ka := pivotKey a
  let kb := pivotKey b
  kb.1 < ka.1 || (kb.1 = ka.1 && strLeB kb.2 ka.2)

/-- Key comparison for the final chronological display sort
(`key=lambda e: e.get("date") or ""`, ascending). -/
def dateAscLe (a b : EventD) : Bool :=
  strLeB (pyOrStr a.date []) (pyOrStr b.date [])

/-- The events chosen and ordered by `render_top_pivotal_events`
(src/app.py 307-310): top three by descending priority key, then re-sorted
by ascending date for display. -/
def top_pivotal_selection (nowYear : Nat) (fuzzy : List Char → Option PDate)
    (events : List EventD) : List EventD :=
  if events = [] then []
  else
    let normalized := events.map (normalize_event nowYear fuzzy)
    insSort dateAscLe ((insSort pivotDescLe normalized).take 3)

/-- `next((i+1 for i, ev in enumerate(events) if ev.get("code") == code and
ev.get("date") == date), idx)` (src/app.py 330). -/
def findTokenIdx (code date : List Char) : Nat → List EventD → Option Nat
  | _, [] => none
  | i, ev :: rest =>
    if ev.code = some code ∧ ev.date = some date then some (i + 1)
    else findTokenIdx code date (i + 1) rest

/-- One rendered line of the pivotal-events block (src/app.py 316-332):
`date – code – effect descriptions – [EVT#k]`. -/
def pivotLineOf (events : List EventD) (idx : Nat) (e : EventD) : List Char :=
  let date := e.date.getD (strL "YYYY-MM-DD")
  let code := e.code.getD (strL "?")
  let effects := e.effects.getD []
  let effectDescs := effects.map (fun eff =>
    match EVENT_CODE_MAPPING_find code with
    | some (desc, _) => desc
    | none => pyReplace (strL "_") (strL " ") eff)
  let effectStr :=
    if effectDescs = [] then strL "event recorded"
    else joinSep (strL "; ") effectDescs
  let tokenIdx := (findTokenIdx code date 0 events).getD idx
  date ++ strL " – " ++ code ++ strL " – " ++ effectStr
    ++ strL " – [EVT#" ++ natDigits tokenIdx ++ strL "]"

/-- The effect-description segment of a pivotal-events line
(src/app.py 319-327), as assembled inside `pivotLineOf`. -/
def pivotEffectStr (e : EventD) : List Char :=
  let code := e.code.getD (strL "?")
  let effectDescs := (e.effects.getD []).map (fun eff =>
    match EVENT_CODE_MAPPING_find code with
    | some (desc, _) => desc
    | none => pyReplace (strL "_") (strL " ") eff)
  if effectDescs = [] then strL "event recorded"
  else joinSep (strL "; ") effectDescs

/-- The numbered-line loop of `render_top_pivotal_events`. -/
def pivotLines (events : List EventD) : Nat → List EventD → List (List Char)
  | _, [] => []
  | i, e :: rest => pivotLineOf events i e :: pivotLines events (i + 1) rest

/-- `render_top_pivotal_events` (src/app.py 280-334), as the list of lines
the source joins with newlines. -/
def render_top_pivotal_events (nowYear : Nat) (fuzzy : List Char → Option PDate)
    (events : List EventD) : List (List Char) :=
  pivotLines events 1 (top_pivotal_selection nowYear fuzzy events)

/-! ### Ranked citations (src/app.py `render_ranked_citations`, 67-107) -/

/-- `kind_score` (src/app.py 79-81). -/
def kind_score (c : CitationD) : Nat :=
  let k := c.kind.getD (strL "bibliographic")
  if k = strL "examiner" then 3
  else if k = strL "legal" then 2
  else if k = strL "applicant" then 1
  else 0

/-- `kind_to_risk` with its `screening-only` default (src/app.py 72-77, 89). -/
def riskLabel (k : List Char) : List Char :=
  if k = strL "examiner" then strL "novelty"
  else if k = strL "legal" then strL "obviousness"
  else if k = strL "applicant" then strL "screening-only"
  else if k = strL "bibliographic" then strL "screening-only"
  else strL "screening-only"

/-- Sort key of the citation ranking: `(kind_score(c), c.get("id", ""))`. -/
def rankKey (c : CitationD) : Nat × List Char :=
  (kind_score c, c.id.getD [])

/-- Key comparison for the descending citation sort (`reverse=True`). -/
def rankDescLe (a b : CitationD) : Bool :=
  let ka := rankKey a
  let kb := rankKey b
  kb.1 < ka.1 || (kb.1 = ka.1 && strLeB kb.2 ka.2)

/-- The citations chosen and ordered by `render_ranked_citations`
(src/app.py 84): top five by descending `(kind_score, id)`. -/
def ranked_citations_selection (citations : List CitationD) : List CitationD :=
  (insSort rankDescLe citations).take 5

/-- One rendered line of the ranked-citations block (src/app.py 87-105). -/
def rankedLineOf (idx : Nat) (c : CitationD) : List Char :=
  let cid := pyOrStr c.id (strL "CIT:?")
  let risk := riskLabel (c.kind.getD (strL "bibliographic"))
  let limitations := pyOrStr c.closest_limits (c.limitations.getD [])
  let workaround := pyOrStr c.workaround []
  let tokenIdx := pyOrNat c.tokenIdx idx
  let parts0 := [natDigits idx ++ strL ". " ++ cid, risk]
  let parts1 :=
    if limitations ≠ [] ∧ limitations ≠ omittedFullMark then parts0 ++ [limitations]
    else parts0
  let parts2 :=
    if workaround ≠ [] ∧ workaround ≠ omittedFullMark then parts1 ++ [workaround]
    else parts1
  let parts := parts2 ++ [strL "[CIT#" ++ natDigits tokenIdx ++ strL "]"]
  joinSep (strL " – ") parts

/-- The numbered-line loop of `render_ranked_citations`. -/
def rankedLines : Nat → List CitationD → List (List Char)
  | _, [] => []
  | i, c :: rest => rankedLineOf i c :: rankedLines (i + 1) rest

/-- `render_ranked_citations` (src/app.py 67-107), as the list of lines the
source joins with newlines. -/
def render_ranked_citations (citations : List CitationD) : List (List Char) :=
  if citations = [] then []
  else rankedLines 1 (ranked_citations_selection citations)

/-! ### The token index (src/app.py `build_token_index`, 463-505) -/

/-- The metadata dictionary stored under a token. -/
inductive TokMeta
  | eventMeta (path date code : List Char) (effects : List (List Char))
  | citationMeta (path id kind : List Char)
  | claimMeta (path : List Char) (claim_no : Option Int)
  | designationMeta (path : List Char)
deriving DecidableEq, Repr

/-- Event metadata (src/app.py 468-476). -/
def evtMetaOf (e : EventD) : TokMeta :=
  TokMeta.eventMeta (e.path.getD (strL "/events")) (e.date.getD (strL "YYYY-MM-DD"))
    (e.code.getD (strL "?")) (e.effects.getD [strL "unknown"])

/-- Citation metadata (src/app.py 479-486). -/
def citMetaOf (c : CitationD) : TokMeta :=
  TokMeta.citationMeta (c.path.getD (strL "/citations")) (c.id.getD (strL "CIT:?"))
    (c.kind.getD (strL "unknown"))

/-- Claim metadata (src/app.py 489-495). -/
def clmMetaOf (c : ClaimD) : TokMeta :=
  TokMeta.claimMeta (c.path.getD (strL "/claims")) c.claim_no

/-- Designation metadata (src/app.py 498-503). -/
def dsgMetaOf (d : DesignationD) : TokMeta :=
  TokMeta.designationMeta (d.path.getD (strL "/designations"))

/-- Python dictionary assignment `m[k] = v` on an insertion-ordered
association list: overwrite in place if the key exists, else append. -/
def dictInsert (m : List (Tok × TokMeta)) (k : Tok) (v : TokMeta) :
    List (Tok × TokMeta) :=
  if m.any (fun p => p.1 = k) then m.map (fun p => if p.1 = k then (k, v) else p)
  else m ++ [(k, v)]

/-- One `for idx, entity in enumerate(..., 1)` loop of `build_token_index`,
assigning `TYPE#i, TYPE#(i+1), ...` into the dictionary. -/
def addTokenEntries (ty : TokType) : List TokMeta → Nat → List (Tok × TokMeta) →
    List (Tok × TokMeta)
  | [], _, m => m
  | v :: rest, i, m => addTokenEntries ty rest (i + 1) (dictInsert m ⟨ty, natDigits i⟩ v)

/-- `build_token_index` (src/app.py 463-505): the four enumeration loops in
source order — events, citations, claims, designations. -/
def build_token_index (ex : Extract) : List (Tok × TokMeta) :=
  addTokenEntries TokType.dsg (ex.designations.map dsgMetaOf) 1
    (addTokenEntries TokType.clm (ex.claims.map clmMetaOf) 1
      (addTokenEntries TokType.cit (ex.citations.map citMetaOf) 1
        (addTokenEntries TokType.evt (ex.events.map evtMetaOf) 1 [])))

/-- Specification-side description of one loop of the builder: the entries
`(TYPE#i, v_0), (TYPE#(i+1), v_1), ...` paired in extraction order.  Stated
from the specification wording (sequential 1-based numbering, no gaps, no
reuse) for comparison with `build_token_index`. -/
def tokEntriesFrom (ty : TokType) : Nat → List TokMeta → List (Tok × TokMeta)
  | _, [] => []
  | i, v :: rest => (⟨ty, natDigits i⟩, v) :: tokEntriesFrom ty (i + 1) rest

/-! ### Report assembly and the coverage banner (src/reporting.py
`REPORT_HTML_TEMPLATE`/`build_html_report`, src/app.py 1535-1560)
The assembled document is modelled structurally as a list of blocks; each
block corresponds to one top-level element of the rendered template or one
element inserted by `main`.  The CSS head of the template contains no
coverage text and is elided. -/

/-- A top-level element of the final HTML document. -/
inductive RBlock
  /-- the `header` div with the single `h1` title (template lines 222-225) -/
  | headerBlock (patentNumber generatedAt : List Char)
  /-- the `coverage-banner` div reporting all four counts
  (template lines 227-229) -/
  | coverageBanner (ev cl ci de : Nat)
  /-- one `section` div with its `h2` title and analysis html -/
  | sectionBlock (title : List Char) (analysis : List Char)
  /-- the coverage paragraph injected by `main` after `</h1>`
  (src/app.py 1538-1550), which reports only events and citations -/
  | injectedCoverageLine (ev ci : Nat)
  /-- the warning banner prepended when the audit fails (src/app.py 1621-1628) -/
  | warningBanner (fails : List (List Char))
deriving DecidableEq, Repr

/-- The context rendered into the template. -/
structure ReportCtx where
  patent_number : List Char
  generated_at : List Char
  analysisES : List Char
  analysisTA : List Char
  analysisPA : List Char
  analysisRC : List Char
  cov_events : Nat
  cov_claims : Nat
  cov_citations : Nat
  cov_designations : Nat
deriving Repr

/-- `build_html_report` (src/reporting.py 264-305): one rendering of
`REPORT_HTML_TEMPLATE`, which contains exactly one header, one coverage
banner and the four sections in fixed order. -/
def build_html_report (ctx : ReportCtx) : List RBlock :=
  [RBlock.headerBlock ctx.patent_number ctx.generated_at,
   RBlock.coverageBanner ctx.cov_events ctx.cov_claims ctx.cov_citations ctx.cov_designations,
   RBlock.sectionBlock (strL "Executive Summary") ctx.analysisES,
   RBlock.sectionBlock (strL "Timeline Analysis") ctx.analysisTA,
   RBlock.sectionBlock (strL "Prior Art Analysis") ctx.analysisPA,
   RBlock.sectionBlock (strL "Evidence-Linked Recommendations") ctx.analysisRC]

/-- The injection of the coverage paragraph after the first `</h1>`
(src/app.py 1546-1550); if no header is found the document is unchanged. -/
def insert_coverage_line (ev ci : Nat) : List RBlock → List RBlock
  | [] => []
  | b :: rest =>
    match b with
    | RBlock.headerBlock p g =>
      RBlock.headerBlock p g :: RBlock.injectedCoverageLine ev ci :: rest
    | other => other :: insert_coverage_line ev ci rest

/-- Whether a block is an injected coverage paragraph (the only block shape
matched by the deduplication regexes of src/app.py 1552-1560). -/
def isInjectedCoverage : RBlock → Bool
  | RBlock.injectedCoverageLine _ _ => true
  | _ => false

/-- The deduplication regexes of src/app.py 1552-1560: collapse adjacent
runs of injected coverage paragraphs to a single one. -/
def dedup_coverage_lines : List RBlock → List RBlock
  | [] => []
  | [b] => [b]
  | b :: b2 :: rest =>
    if isInjectedCoverage b ∧ isInjectedCoverage b2 then
      dedup_coverage_lines (b :: rest)
    else b :: dedup_coverage_lines (b2 :: rest)
termination_by l => l.length
decreasing_by
  · simp [Nat.lt_succ_self]
  · simp [Nat.lt_succ_self]

/-- The document as emitted by `main` (src/app.py 1535-1637): template
rendering, coverage injection, coverage deduplication, and the warning
banner prepended when the final audit reported failures. -/
def assemble_final_report (ctx : ReportCtx) (fails : List (List Char)) : List RBlock :=
  (if fails = [] then [] else [RBlock.warningBanner fails])
    ++ dedup_coverage_lines
        (insert_coverage_line ctx.cov_events ctx.cov_citations (build_html_report ctx))

/-- Number of four-count coverage banners in a document. -/
def countCoverageBanners (doc : List RBlock) : Nat :=
  doc.countP fun b =>
    match b with
    | RBlock.coverageBanner _ _ _ _ => true
    | _ => false

/-! ### Per-section final output (src/app.py 1433-1518) -/

/-- The four report sections. -/
inductive SectionKey
  | executive | timeline | priorArt | recommendations
deriving DecidableEq, Repr

/-- The filter applied to pivotal-event lines before they are appended
(src/app.py 1494-1498): keep a line iff its first `EVT` token is a key of
the token index. -/
def lineValidEvtTok (keys : List Tok) (ln : List Char) : Bool :=
  match (findTokens ln).find? (fun t => decide (t.ty = TokType.evt)) with
  | some t => tokMemB t keys
  | none => false

/-- The filter applied to ranked-citation lines before they are appended
(src/app.py 1512-1516). -/
def lineValidCitTok (keys : List Tok) (ln : List Char) : Bool :=
  match (findTokens ln).find? (fun t => decide (t.ty = TokType.cit)) with
  | some t => tokMemB t keys
  | none => false

/-- The pivotal-events block appended to the timeline section
(src/app.py 1490-1500), with its heading line. -/
def topBlockLines (keys : List Tok) (nowYear : Nat)
    (fuzzy : List Char → Option PDate) (events : List EventD) : List (List Char) :=
  if events = [] then []
  else
    let valid := (render_top_pivotal_events nowYear fuzzy events).filter (lineValidEvtTok keys)
    if valid = [] then [] else strL "Top 3 pivotal events:" :: valid

/-- The ranked-citations block appended to the prior-art section
(src/app.py 1502-1518), with its heading line. -/
def rankedBlockLines (keys : List Tok) (citations : List CitationD) : List (List Char) :=
  if citations = [] then []
  else
    let valid := (render_ranked_citations citations).filter (lineValidCitTok keys)
    if valid = [] then []
    else
      (if citations.length ≥ 5 then strL "Ranked Top 5 citations:"
       else strL "Ranked Citations:") :: valid

/-- The lines of one finalized section (src/app.py 1443-1518): survivors of
the final token filter, word-deduplicated, followed by the deterministic
blocks for the timeline and prior-art sections. -/
def section_output_lines (key : SectionKey) (lines : List (List Char))
    (keys : List Tok) (nowYear : Nat) (fuzzy : List Char → Option PDate)
    (events : List EventD) (citations : List CitationD) : List (List Char) :=
  (clean_lines lines keys).map deduplicate_line
    ++ (if key = SectionKey.timeline then topBlockLines keys nowYear fuzzy events else [])
    ++ (if key = SectionKey.priorArt then rankedBlockLines keys citations else [])

/-- A string free of the characters that can open a placeholder or marker. -/
def markerCharFree (s : List Char) : Bool :=
  s.all fun c => ¬ (c = '(' ∨ c = '[')

/-- Marker-char freedom of the event fields interpolated into pivotal lines. -/
def eventFieldsClean (e : EventD) : Bool :=
  markerCharFree (e.date.getD (strL "YYYY-MM-DD"))
    && markerCharFree (e.code.getD (strL "?"))
    && (e.effects.getD []).all markerCharFree

/-- Marker-char freedom of the citation fields interpolated into ranked lines. -/
def citationFieldsClean (c : CitationD) : Bool :=
  markerCharFree (pyOrStr c.id (strL "CIT:?"))
    && markerCharFree (pyOrStr c.closest_limits (c.limitations.getD []))
    && markerCharFree (pyOrStr c.workaround [])

/-- Non-strict order on `(int, str)` sort keys, as Python compares the
tuples produced by the `key=` functions above. -/
def keyPairLe (x y : Nat × List Char) : Bool :=
  x.1 < y.1 || (x.1 = y.1 && strLeB x.2 y.2)

/-! ## Theorems

### Prefix, suffix and substring lemmas -/

theorem isPrefixB_length_le {p l : List Char} (h : isPrefixB p l = true) :
    p.length ≤ l.length := by
  induction p generalizing l with
  | nil => simp
  | cons a as ih =>
    cases l with
    | nil => simp [isPrefixB] at h
    | cons b bs =>
      simp only [isPrefixB, Bool.and_eq_true] at h
      simpa using ih h.2

theorem isPrefixB_refl (l : List Char) : isPrefixB l l = true := by
  induction l with
  | nil => rfl
  | cons a as ih => simp [isPrefixB, ih]

theorem isPrefixB_eq_take {p l : List Char} (h : isPrefixB p l = true) :
    l.take p.length = p := by
  induction p generalizing l with
  | nil => simp
  | cons a as ih =>
    cases l with
    | nil => simp [isPrefixB] at h
    | cons b bs =>
      simp only [isPrefixB, Bool.and_eq_true, decide_eq_true_eq] at h
      simp [List.take, ih h.2, h.1]

theorem isPrefixB_append_ext {p a : List Char} (b : List Char)
    (h : isPrefixB p a = true) : isPrefixB p (a ++ b) = true := by
  induction p generalizing a with
  | nil => rfl
  | cons x xs ih =>
    cases a with
    | nil => simp [isPrefixB] at h
    | cons y ys =>
      simp only [isPrefixB, Bool.and_eq_true] at h ⊢
      exact ⟨h.1, ih h.2⟩

theorem isPrefixB_of_eq (p : List Char) {l : List Char} (h : p = l) :
    isPrefixB p l = true := h ▸ isPrefixB_refl p

theorem isPrefixB_trans {p q l : List Char} (h1 : isPrefixB p q = true)
    (h2 : isPrefixB q l = true) : isPrefixB p l = true := by
  induction p generalizing q l with
  | nil => rfl
  | cons x xs ih =>
    cases q with
    | nil => simp [isPrefixB] at h1
    | cons y ys =>
      cases l with
      | nil => simp [isPrefixB] at h2
      | cons z zs =>
        simp only [isPrefixB, Bool.and_eq_true, decide_eq_true_eq] at h1 h2 ⊢
        exact ⟨by rw [h1.1, h2.1], ih h1.2 h2.2⟩

theorem isPrefixB_head {x : Char} {xs l : List Char}
    (h : isPrefixB (x :: xs) l = true) :
    ∃ r, l = x :: r ∧ isPrefixB xs r = true := by
  cases l with
  | nil => simp [isPrefixB] at h
  | cons y ys =>
    simp only [isPrefixB, Bool.and_eq_true, decide_eq_true_eq] at h
    exact ⟨ys, by rw [h.1], h.2⟩

theorem isPrefixB_append_cases {p : List Char} (a b : List Char)
    (h : isPrefixB p (a ++ b) = true) :
    isPrefixB p a = true ∨
      (isPrefixB a p = true ∧ isPrefixB (p.drop a.length) b = true) := by
  induction a generalizing p with
  | nil => exact Or.inr ⟨rfl, h⟩
  | cons c a' ih =>
    cases p with
    | nil => exact Or.inl rfl
    | cons d p' =>
      simp only [List.cons_append, isPrefixB, Bool.and_eq_true] at h ⊢
      rcases ih h.2 with h1 | ⟨h1, h2⟩
      · exact Or.inl ⟨h.1, h1⟩
      · refine Or.inr ⟨⟨?_, h1⟩, ?_⟩
        · simpa [eq_comm] using h.1
        · simpa using h2

theorem isSuffixB_refl (l : List Char) : isSuffixB l l = true := by
  cases l with
  | nil => rfl
  | cons c rest => simp [isSuffixB]

theorem isSuffixB_cons_ext {s l : List Char} (c : Char)
    (h : isSuffixB s l = true) : isSuffixB s (c :: l) = true := by
  simp [isSuffixB, h]

theorem isSuffixB_subset {s l : List Char} (h : isSuffixB s l = true) :
    ∀ c ∈ s, c ∈ l := by
  induction l with
  | nil =>
    simp only [isSuffixB, decide_eq_true_eq] at h
    simp [h]
  | cons d rest ih =>
    simp only [isSuffixB, Bool.or_eq_true, decide_eq_true_eq] at h
    rcases h with h | h
    · rw [h]; intro c hc; exact hc
    · intro c hc; exact List.mem_cons_of_mem d (ih h c hc)

theorem containsSub_nil_pat (l : List Char) : containsSub [] l = true := by
  cases l with
  | nil => rfl
  | cons c rest => simp [containsSub, isPrefixB]

theorem containsSub_of_isPrefixB {p l : List Char} (h : isPrefixB p l = true) :
    containsSub p l = true := by
  cases l with
  | nil =>
    cases p with
    | nil => rfl
    | cons x xs => simp [isPrefixB] at h
  | cons c rest => simp [containsSub, h]

theorem containsSub_cons {p rest : List Char} (c : Char)
    (h : containsSub p rest = true) : containsSub p (c :: rest) = true := by
  simp [containsSub, h]

theorem containsSub_append_left {p a : List Char} (b : List Char)
    (h : containsSub p a = true) : containsSub p (a ++ b) = true := by
  induction a with
  | nil =>
    simp only [containsSub, decide_eq_true_eq] at h
    rw [h]; exact containsSub_nil_pat b
  | cons c a' ih =>
    simp only [containsSub, Bool.or_eq_true] at h ⊢
    rcases h with h | h
    · exact Or.inl (by simpa using isPrefixB_append_ext b h)
    · exact Or.inr (ih h)

theorem containsSub_append_right {p b : List Char} (a : List Char)
    (h : containsSub p b = true) : containsSub p (a ++ b) = true := by
  induction a with
  | nil => simpa using h
  | cons c a' ih => simpa using containsSub_cons c ih

theorem containsSub_head_mem {c : Char} {p' l : List Char}
    (h : containsSub (c :: p') l = true) : c ∈ l := by
  induction l with
  | nil => simp [containsSub] at h
  | cons d rest ih =>
    simp only [containsSub, Bool.or_eq_true] at h
    rcases h with h | h
    · obtain ⟨r, hr, _⟩ := isPrefixB_head h
      rw [hr]; exact List.mem_cons_self c r
    · exact List.mem_cons_of_mem d (ih h)

theorem containsSub_of_prefix_pat {p q l : List Char}
    (hpq : isPrefixB p q = true) (h : containsSub q l = true) :
    containsSub p l = true := by
  induction l with
  | nil =>
    simp only [containsSub, decide_eq_true_eq] at h
    subst h
    cases p with
    | nil => rfl
    | cons x xs => simp [isPrefixB] at hpq
  | cons c rest ih =>
    simp only [containsSub, Bool.or_eq_true] at h ⊢
    rcases h with h | h
    · exact Or.inl (isPrefixB_trans hpq h)
    · exact Or.inr (ih h)

theorem containsSub_append_cases {p : List Char} (a b : List Char)
    (hp : p ≠ []) (h : containsSub p (a ++ b) = true) :
    containsSub p a = true ∨ containsSub p b = true ∨
      ∃ k, 0 < k ∧ k < p.length ∧ isSuffixB (p.take k) a = true ∧
        isPrefixB (p.drop k) b = true := by
  induction a generalizing p with
  | nil => exact Or.inr (Or.inl (by simpa using h))
  | cons c a' ih =>
    simp only [List.cons_append, containsSub, Bool.or_eq_true] at h
    rcases h with h | h
    · rcases isPrefixB_append_cases (c :: a') b h with h1 | ⟨h1, h2⟩
      · exact Or.inl (containsSub_of_isPrefixB h1)
      · by_cases hlen : p.length ≤ (c :: a').length
        · have : isPrefixB p (c :: a') = true := by
            have := isPrefixB_eq_take h1
            have hple : (c :: a').length ≤ p.length := isPrefixB_length_le h1
            have : (c :: a').length = p.length := le_antisymm hple hlen
            have heq : c :: a' = p := by
              have ht := isPrefixB_eq_take h1
              rw [this, List.take_length] at ht
              exact ht.symm ▸ rfl
            exact isPrefixB_of_eq p heq.symm
          exact Or.inl (containsSub_of_isPrefixB this)
        · refine Or.inr (Or.inr ⟨(c :: a').length, by simp, by omega, ?_, h2⟩)
          have := isPrefixB_eq_take h1
          rw [this]
          exact isSuffixB_refl _
    · rcases ih hp h with h1 | h1 | ⟨k, hk0, hkl, hks, hkp⟩
      · exact Or.inl (containsSub_cons c h1)
      · exact Or.inr (Or.inl h1)
      · exact Or.inr (Or.inr ⟨k, hk0, hkl, isSuffixB_cons_ext c hks, hkp⟩)

/-! ### Words, joining and line deduplication -/

theorem containsSub_joinSpace {p : List Char} (hp : p ≠ []) (hsp : ' ' ∉ p) :
    ∀ ws, containsSub p (joinSep [' '] ws) = true → ∃ w ∈ ws, containsSub p w = true := by
  intro ws
  induction ws with
  | nil =>
    intro h
    simp only [joinSep, containsSub, decide_eq_true_eq] at h
    exact absurd h hp
  | cons w ws ih =>
    cases ws with
    | nil =>
      intro h
      exact ⟨w, List.mem_cons_self _ _, by simpa [joinSep] using h⟩
    | cons w' ws' =>
      intro h
      have hj : joinSep [' '] (w :: w' :: ws') = w ++ (' ' :: joinSep [' '] (w' :: ws')) := by
        simp [joinSep]
      rw [hj] at h
      rcases containsSub_append_cases w (' ' :: joinSep [' '] (w' :: ws')) hp h with
        h1 | h1 | ⟨k, hk0, hkl, _, hkp⟩
      · exact ⟨w, List.mem_cons_self _ _, h1⟩
      · simp only [containsSub, Bool.or_eq_true] at h1
        rcases h1 with h1 | h1
        · cases p with
          | nil => exact absurd rfl hp
          | cons x xs =>
            obtain ⟨r, hr, _⟩ := isPrefixB_head h1
            have : x = ' ' := by
              injection hr with h1 h2
              exact h1.symm
            exact absurd (this ▸ List.mem_cons_self x xs) hsp
        · obtain ⟨v, hv, hcv⟩ := ih h1
          exact ⟨v, List.mem_cons_of_mem w hv, hcv⟩
      · have hne : p.drop k ≠ [] := by
          intro hnil
          have := congrArg List.length hnil
          simp only [List.length_drop, List.length_nil] at this
          omega
        cases hdk : p.drop k with
        | nil => exact absurd hdk hne
        | cons x xs =>
          rw [hdk] at hkp
          obtain ⟨r, hr, _⟩ := isPrefixB_head hkp
          have hx : x = ' ' := by
            injection hr with h1 h2
            exact h1.symm
          have hmem : x ∈ p := by
            have : x ∈ p.drop k := by rw [hdk]; exact List.mem_cons_self x xs
            exact List.drop_subset k p this
          exact absurd (hx ▸ hmem) hsp

theorem mem_dedupAdjacent {w : List Char} :
    ∀ prev ws, w ∈ dedupAdjacent prev ws → w ∈ ws := by
  intro prev ws
  induction ws generalizing prev with
  | nil => simp [dedupAdjacent]
  | cons v vs ih =>
    simp only [dedupAdjacent]
    split
    · intro h; exact List.mem_cons_of_mem v (ih prev h)
    · intro h
      rcases List.mem_cons.mp h with h | h
      · rw [h]; exact List.mem_cons_self v vs
      · exact List.mem_cons_of_mem v (ih (some v) h)

theorem pySplitWsFuel_congr :
    ∀ f1 f2 l, l.length ≤ f1 → l.length ≤ f2 →
      pySplitWsFuel f1 l = pySplitWsFuel f2 l := by
  intro f1
  induction f1 with
  | zero =>
    intro f2 l h1 _
    have : l = [] := List.eq_nil_of_length_eq_zero (by omega)
    subst this
    cases f2 <;> rfl
  | succ f1 ih =>
    intro f2 l h1 h2
    cases l with
    | nil => cases f2 <;> rfl
    | cons c rest =>
      cases f2 with
      | zero => simp at h2
      | succ f2 =>
        simp only [pySplitWsFuel]
        cases hic : c.isWhitespace with
        | true =>
          simp only [if_pos rfl]
          exact ih f2 rest (by simp at h1; omega) (by simp at h2; omega)
        | false =>
          simp only [Bool.false_eq_true, if_false]
          have hd : ((c :: rest).dropWhile (fun d => !d.isWhitespace)).length ≤ rest.length := by
            rw [List.dropWhile_cons]
            simp only [hic, Bool.not_false, if_true]
            exact (List.dropWhile_suffix (l := rest) (fun d => !d.isWhitespace)).length_le
          rw [ih f2 _ (by simp at h1; omega) (by simp at h2; omega)]

theorem pySplitWs_ws_cons {c : Char} {rest : List Char} (hc : c.isWhitespace = true) :
    pySplitWs (c :: rest) = pySplitWs rest := by
  simp only [pySplitWs, List.length_cons, pySplitWsFuel, hc]
  simp

theorem pySplitWs_word_cons {c : Char} {rest : List Char} (hc : c.isWhitespace = false) :
    pySplitWs (c :: rest)
      = ((c :: rest).takeWhile (fun d => !d.isWhitespace)) ::
        pySplitWs ((c :: rest).dropWhile (fun d => !d.isWhitespace)) := by
  simp only [pySplitWs, List.length_cons, pySplitWsFuel, hc, Bool.false_eq_true, if_false]
  congr 1
  apply pySplitWsFuel_congr
  · rw [List.dropWhile_cons]
    simp only [hc, Bool.not_false, if_true]
    exact (List.dropWhile_suffix (l := rest) (fun d => !d.isWhitespace)).length_le
  · exact le_refl _

theorem mem_pySplitWs_contains {q : List Char} :
    ∀ l w, w ∈ pySplitWs l → containsSub q w = true → containsSub q l = true := by
  intro l
  generalize hn : l.length = n
  induction n using Nat.strong_induction_on generalizing l with
  | _ n ih =>
    cases l with
    | nil =>
      intro w hw
      simp [pySplitWs, pySplitWsFuel] at hw
    | cons c rest =>
      cases hc : c.isWhitespace with
      | true =>
        rw [pySplitWs_ws_cons hc]
        intro w hw hcw
        have hr : containsSub q rest = true := by
          have hlen : rest.length < n := by simp at hn; omega
          exact ih rest.length hlen rest rfl w hw hcw
        exact containsSub_cons c hr
      | false =>
        rw [pySplitWs_word_cons hc]
        intro w hw hcw
        have hsplit : ((c :: rest).takeWhile (fun d => !d.isWhitespace))
            ++ ((c :: rest).dropWhile (fun d => !d.isWhitespace)) = c :: rest :=
          List.takeWhile_append_dropWhile (p := fun d => !d.isWhitespace) (l := c :: rest)
        rcases List.mem_cons.mp hw with hw | hw
        · subst hw
          calc containsSub q (c :: rest)
              = containsSub q (((c :: rest).takeWhile (fun d => !d.isWhitespace))
                ++ ((c :: rest).dropWhile (fun d => !d.isWhitespace))) := by rw [hsplit]
            _ = true := containsSub_append_left _ hcw
        · have hlen : ((c :: rest).dropWhile (fun d => !d.isWhitespace)).length < n := by
            rw [List.dropWhile_cons]
            simp only [hc, Bool.not_false, if_true]
            have := (List.dropWhile_suffix (l := rest) (fun d => !d.isWhitespace)).length_le
            simp at hn
            omega
          have hcd : containsSub q ((c :: rest).dropWhile (fun d => !d.isWhitespace)) = true :=
            ih _ hlen _ rfl w hw hcw
          calc containsSub q (c :: rest)
              = containsSub q (((c :: rest).takeWhile (fun d => !d.isWhitespace))
                ++ ((c :: rest).dropWhile (fun d => !d.isWhitespace))) := by rw [hsplit]
            _ = true := containsSub_append_right _ hcd

theorem not_containsSub_deduplicate_line {p l : List Char} (hp : p ≠ [])
    (hnw : ∀ c ∈ p, c.isWhitespace = false) (h : containsSub p l = false) :
    containsSub p (deduplicate_line l) = false := by
  by_contra hcon
  have hcon' : containsSub p (deduplicate_line l) = true := by
    cases hb : containsSub p (deduplicate_line l)
    · exact absurd hb hcon
    · rfl
  have hsp : ' ' ∉ p := by
    intro hm
    have := hnw ' ' hm
    simp [Char.isWhitespace] at this
  obtain ⟨w, hw, hcw⟩ := containsSub_joinSpace hp hsp _ hcon'
  have hw' : w ∈ pySplitWs l := mem_dedupAdjacent none _ hw
  have := mem_pySplitWs_contains l w hw' hcw
  rw [h] at this
  exact Bool.false_ne_true this

/-! ### Lemmas about `pyReplace` -/

theorem pyReplace_nil (old new : List Char) (h : old ≠ []) :
    pyReplace old new [] = [] := by
  unfold pyReplace
  simp [h]

theorem pyReplace_cons_pos (old new : List Char) (c : Char) (rest : List Char)
    (h : old ≠ []) (hp : isPrefixB old (c :: rest) = true) :
    pyReplace old new (c :: rest)
      = new ++ pyReplace old new ((c :: rest).drop old.length) := by
  conv_lhs => rw [pyReplace]
  simp [h, hp]

theorem pyReplace_cons_neg (old new : List Char) (c : Char) (rest : List Char)
    (h : old ≠ []) (hp : isPrefixB old (c :: rest) = false) :
    pyReplace old new (c :: rest) = c :: pyReplace old new rest := by
  conv_lhs => rw [pyReplace]
  simp [h, hp]

theorem mem_pyReplace {c : Char} {old new : List Char} :
    ∀ l, c ∈ pyReplace old new l → c ∈ l ∨ c ∈ new := by
  by_cases hold : old = []
  · intro l h
    rw [hold] at h
    unfold pyReplace at h
    simp at h
    exact Or.inl h
  · intro l
    generalize hn : l.length = n
    induction n using Nat.strong_induction_on generalizing l with
    | _ n ih =>
      cases l with
      | nil =>
        rw [pyReplace_nil old new hold]
        simp
      | cons d rest =>
        by_cases hp : isPrefixB old (d :: rest) = true
        · rw [pyReplace_cons_pos old new d rest hold hp]
          intro h
          rcases List.mem_append.mp h with h | h
          · exact Or.inr h
          · have hlt : ((d :: rest).drop old.length).length < n := by
              have : 0 < old.length := List.length_pos.mpr hold
              simp only [List.length_drop, List.length_cons] at hn ⊢
              omega
            rcases ih _ hlt _ rfl h with h1 | h1
            · exact Or.inl (List.drop_subset _ _ h1)
            · exact Or.inr h1
        · rw [pyReplace_cons_neg old new d rest hold (by simpa using hp)]
          intro h
          rcases List.mem_cons.mp h with h | h
          · exact Or.inl (h ▸ List.mem_cons_self d rest)
          · have hlt : rest.length < n := by simp at hn; omega
            rcases ih _ hlt _ rfl h with h1 | h1
            · exact Or.inl (List.mem_cons_of_mem d h1)
            · exact Or.inr h1

/-! ### The substitution `text.replace("estoppel", "prosecution interpretation")`
never leaves a lowercase occurrence of the target -/

theorem epTarget_ne_nil : epTarget ≠ [] := by decide

theorem ep_remainder_through_replace :
    ∀ n l, l.length = n → ∀ k, 1 ≤ k → k ≤ 7 →
      isPrefixB (epTarget.drop k) (pyReplace epTarget epReplacement l) = true →
      isPrefixB (epTarget.drop k) l = true := by
  intro n
  induction n using Nat.strong_induction_on with
  | _ n ih =>
    intro l hlen k hk1 hk7 h
    cases l with
    | nil =>
      rw [pyReplace_nil _ _ epTarget_ne_nil] at h
      cases hdp : epTarget.drop k with
      | nil =>
        have := congrArg List.length hdp
        simp [epTarget, strL] at this
        omega
      | cons x xs =>
        rw [hdp] at h
        simp [isPrefixB] at h
    | cons c rest =>
      by_cases hpre : isPrefixB epTarget (c :: rest) = true
      · rw [pyReplace_cons_pos _ _ _ _ epTarget_ne_nil hpre] at h
        rcases isPrefixB_append_cases epReplacement _ h with h1 | ⟨h1, _⟩
        · interval_cases k <;> exact absurd h1 (by decide)
        · have hle := isPrefixB_length_le h1
          have h26 : epReplacement.length = 26 := by decide
          have h8 : (epTarget.drop k).length = 8 - k := by
            simp [epTarget, strL]
          omega
      · rw [pyReplace_cons_neg _ _ _ _ epTarget_ne_nil (by simpa using hpre)] at h
        have hklt : k < 8 := by omega
        have h8 : epTarget.length = 8 := by decide
        have hdrop : epTarget.drop k = epTarget[k] :: epTarget.drop (k + 1) :=
          List.drop_eq_getElem_cons (by omega)
        rw [hdrop] at h ⊢
        simp only [isPrefixB, Bool.and_eq_true] at h ⊢
        refine ⟨h.1, ?_⟩
        by_cases hk7' : k = 7
        · subst hk7'
          rw [show epTarget.drop 8 = [] by decide]
          rfl
        · exact ih rest.length (by simp at hlen; omega) rest rfl (k + 1)
            (by omega) (by omega) h.2

theorem pyReplace_ep_no_target :
    ∀ n l, l.length = n →
      containsSub epTarget (pyReplace epTarget epReplacement l) = false := by
  intro n
  induction n using Nat.strong_induction_on with
  | _ n ih =>
    intro l hlen
    cases l with
    | nil =>
      rw [pyReplace_nil _ _ epTarget_ne_nil]
      decide
    | cons c rest =>
      by_cases hpre : isPrefixB epTarget (c :: rest) = true
      · rw [pyReplace_cons_pos _ _ _ _ epTarget_ne_nil hpre]
        by_contra hcon
        have hcon' : containsSub epTarget
            (epReplacement ++ pyReplace epTarget epReplacement ((c :: rest).drop epTarget.length))
            = true := by
          cases hb : containsSub epTarget (epReplacement ++ _)
          · exact absurd hb hcon
          · rfl
        rcases containsSub_append_cases _ _ epTarget_ne_nil hcon' with h1 | h1 | ⟨k, hk0, hkl, hks, _⟩
        · exact absurd h1 (by decide)
        · have hlt : ((c :: rest).drop epTarget.length).length < n := by
            have h8 : epTarget.length = 8 := by decide
            rw [h8]
            simp only [List.length_drop, List.length_cons] at hlen ⊢
            omega
          rw [ih _ hlt _ rfl] at h1
          exact Bool.false_ne_true h1
        · have h8 : epTarget.length = 8 := by decide
          rw [h8] at hkl
          interval_cases k <;> exact absurd hks (by decide)
      · rw [pyReplace_cons_neg _ _ _ _ epTarget_ne_nil (by simpa using hpre)]
        have hrest : containsSub epTarget (pyReplace epTarget epReplacement rest) = false :=
          ih rest.length (by simp at hlen; omega) rest rfl
        simp only [containsSub, Bool.or_eq_false_iff]
        refine ⟨?_, hrest⟩
        by_contra hcon
        have hcon' : isPrefixB epTarget
            (c :: pyReplace epTarget epReplacement rest) = true := by
          cases hb : isPrefixB epTarget (c :: pyReplace epTarget epReplacement rest)
          · exact absurd hb hcon
          · rfl
        have h0 : epTarget = epTarget[0] :: epTarget.drop 1 := by
          have := List.drop_eq_getElem_cons (n := 0) (l := epTarget) (by decide)
          simpa using this
        rw [h0] at hcon'
        simp only [isPrefixB, Bool.and_eq_true] at hcon'
        have htail := ep_remainder_through_replace rest.length rest rfl 1
          (by omega) (by omega) hcon'.2
        have : isPrefixB epTarget (c :: rest) = true := by
          rw [h0]
          simp only [isPrefixB, Bool.and_eq_true]
          exact ⟨hcon'.1, htail⟩
        exact hpre this

/-! ### Decimal digit lemmas -/

theorem natDigitsFuel_congr :
    ∀ f1 f2 n, n < f1 → n < f2 → natDigitsFuel f1 n = natDigitsFuel f2 n := by
  intro f1
  induction f1 with
  | zero => intro f2 n h1; omega
  | succ f1 ih =>
    intro f2 n h1 h2
    cases f2 with
    | zero => omega
    | succ f2 =>
      simp only [natDigitsFuel]
      by_cases h10 : n < 10
      · simp [h10]
      · simp only [h10, if_false]
        rw [ih f2 (n / 10) (by omega) (by omega)]

theorem natDigitsFuel_succ (fuel n : Nat) :
    natDigitsFuel (fuel + 1) n
      = if n < 10 then [digitChar n]
        else natDigitsFuel fuel (n / 10) ++ [digitChar (n % 10)] := rfl

theorem natDigits_lt_ten {n : Nat} (h : n < 10) : natDigits n = [digitChar n] := by
  rw [natDigits, natDigitsFuel_succ, if_pos h]

theorem natDigits_ge_ten {n : Nat} (h : ¬ n < 10) :
    natDigits n = natDigits (n / 10) ++ [digitChar (n % 10)] := by
  rw [natDigits, natDigitsFuel_succ, if_neg h, natDigits,
    natDigitsFuel_congr n (n / 10 + 1) (n / 10) (by omega) (by omega)]

theorem digitVal_digitChar {m : Nat} (h : m < 10) : digitVal (digitChar m) = m := by
  interval_cases m <;> rfl

theorem digitChar_isDigit {m : Nat} (h : m < 10) : (digitChar m).isDigit = true := by
  interval_cases m <;> decide

theorem digitsToNat_append_singleton (xs : List Char) (c : Char) :
    digitsToNat (xs ++ [c]) = 10 * digitsToNat xs + digitVal c := by
  simp [digitsToNat, List.foldl_append]

theorem digitsToNat_natDigits : ∀ n, digitsToNat (natDigits n) = n := by
  intro n
  induction n using Nat.strong_induction_on with
  | _ n ih =>
    by_cases h10 : n < 10
    · rw [natDigits_lt_ten h10]
      simp [digitsToNat, digitVal_digitChar h10]
    · rw [natDigits_ge_ten h10, digitsToNat_append_singleton,
        ih (n / 10) (by omega), digitVal_digitChar (by omega)]
      omega

theorem natDigits_inj {a b : Nat} (h : natDigits a = natDigits b) : a = b := by
  have := congrArg digitsToNat h
  rwa [digitsToNat_natDigits, digitsToNat_natDigits] at this

theorem natDigits_all_digit : ∀ n c, c ∈ natDigits n → c.isDigit = true := by
  intro n
  induction n using Nat.strong_induction_on with
  | _ n ih =>
    intro c hc
    by_cases h10 : n < 10
    · rw [natDigits_lt_ten h10] at hc
      simp at hc
      rw [hc]
      exact digitChar_isDigit h10
    · rw [natDigits_ge_ten h10] at hc
      rcases List.mem_append.mp hc with hc | hc
      · exact ih (n / 10) (by omega) c hc
      · simp at hc
        rw [hc]
        exact digitChar_isDigit (by omega)

/-! ### Stable insertion sort lemmas -/

theorem insertOrd_perm (le : α → α → Bool) (x : α) :
    ∀ l, (insertOrd le x l).Perm (x :: l) := by
  intro l
  induction l with
  | nil => exact List.Perm.refl _
  | cons y ys ih =>
    simp only [insertOrd]
    split
    · exact List.Perm.refl _
    · exact (ih.cons y).trans (List.Perm.swap x y ys)

theorem insSort_perm (le : α → α → Bool) : ∀ l, (insSort le l).Perm l := by
  intro l
  induction l with
  | nil => exact List.Perm.refl _
  | cons x xs ih =>
    exact (insertOrd_perm le x (insSort le xs)).trans (ih.cons x)

theorem mem_insSort {le : α → α → Bool} {a : α} {l : List α} :
    a ∈ insSort le l ↔ a ∈ l :=
  (insSort_perm le l).mem_iff

theorem length_insSort (le : α → α → Bool) (l : List α) :
    (insSort le l).length = l.length :=
  (insSort_perm le l).length_eq

theorem mem_insertOrd {le : α → α → Bool} {a x : α} {l : List α} :
    a ∈ insertOrd le x l ↔ a = x ∨ a ∈ l :=
  ((insertOrd_perm le x l).mem_iff).trans (List.mem_cons)

theorem insertOrd_pairwise {le : α → α → Bool}
    (htot : ∀ a b, le a b = true ∨ le b a = true)
    (htrans : ∀ a b c, le a b = true → le b c = true → le a c = true)
    {x : α} {l : List α}
    (h : l.Pairwise (fun a b => le a b = true)) :
    (insertOrd le x l).Pairwise (fun a b => le a b = true) := by
  induction l with
  | nil => simp [insertOrd]
  | cons y ys ih =>
    simp only [insertOrd]
    rcases List.pairwise_cons.mp h with ⟨hy, hys⟩
    by_cases hxy : le x y = true
    · rw [if_pos hxy]
      refine List.pairwise_cons.mpr ⟨?_, h⟩
      intro z hz
      rcases List.mem_cons.mp hz with hz | hz
      · subst hz; exact hxy
      · exact htrans x y z hxy (hy z hz)
    · rw [if_neg hxy]
      refine List.pairwise_cons.mpr ⟨?_, ih hys⟩
      intro z hz
      rcases mem_insertOrd.mp hz with hz | hz
      · rcases htot x y with h1 | h1
        · exact absurd h1 hxy
        · rw [hz]; exact h1
      · exact hy z hz

theorem insSort_pairwise {le : α → α → Bool}
    (htot : ∀ a b, le a b = true ∨ le b a = true)
    (htrans : ∀ a b c, le a b = true → le b c = true → le a c = true)
    (l : List α) :
    (insSort le l).Pairwise (fun a b => le a b = true) := by
  induction l with
  | nil => simp [insSort]
  | cons x xs ih => exact insertOrd_pairwise htot htrans ih

/-! ### String and key order lemmas -/

theorem strLtB_resolve :
    ∀ c a b, strLtB c a = true → strLtB b a = true ∨ strLtB c b = true := by
  intro c
  induction c with
  | nil =>
    intro a b h
    cases a with
    | nil => simp [strLtB] at h
    | cons x xs =>
      cases b with
      | nil => exact Or.inl rfl
      | cons y ys => exact Or.inr rfl
  | cons z zs ih =>
    intro a b h
    cases a with
    | nil => simp [strLtB] at h
    | cons x xs =>
      cases b with
      | nil => exact Or.inl rfl
      | cons y ys =>
        simp only [strLtB] at h ⊢
        by_cases hyx : y.toNat < x.toNat
        · exact Or.inl (by rw [if_pos hyx])
        · by_cases hzy : z.toNat < y.toNat
          · exact Or.inr (by rw [if_pos hzy])
          · by_cases hzx : z.toNat < x.toNat
            · omega
            · rw [if_neg hzx] at h
              by_cases hxz : x.toNat < z.toNat
              · rw [if_pos hxz] at h
                exact absurd h (by simp)
              · rw [if_neg hxz] at h
                have hxy : ¬ x.toNat < y.toNat := by omega
                have hyz : ¬ y.toNat < z.toNat := by omega
                rcases ih xs ys h with h1 | h1
                · exact Or.inl (by rw [if_neg hyx, if_neg hxy]; exact h1)
                · exact Or.inr (by rw [if_neg hzy, if_neg hyz]; exact h1)

theorem strLtB_asymm : ∀ a b, strLtB a b = true → strLtB b a = false := by
  intro a
  induction a with
  | nil =>
    intro b h
    cases b with
    | nil => simp [strLtB] at h
    | cons y ys => rfl
  | cons x xs ih =>
    intro b h
    cases b with
    | nil => simp [strLtB] at h
    | cons y ys =>
      simp only [strLtB] at h ⊢
      by_cases hxy : x.toNat < y.toNat
      · rw [if_neg (by omega : ¬ y.toNat < x.toNat), if_pos hxy]
      · rw [if_neg hxy] at h
        by_cases hyx : y.toNat < x.toNat
        · rw [if_pos hyx] at h
          exact absurd h (by simp)
        · rw [if_neg hyx] at h
          rw [if_neg hyx, if_neg hxy]
          exact ih ys h

theorem strLeB_total : ∀ a b, strLeB a b = true ∨ strLeB b a = true := by
  intro a b
  unfold strLeB
  cases h : strLtB b a
  · exact Or.inl (by simp)
  · have := strLtB_asymm b a h
    exact Or.inr (by simp [this])

theorem strLeB_trans : ∀ a b c, strLeB a b = true → strLeB b c = true →
    strLeB a c = true := by
  intro a b c hab hbc
  unfold strLeB at hab hbc ⊢
  cases h : strLtB c a
  · simp
  · exfalso
    rcases strLtB_resolve c a b h with h1 | h1
    · simp [h1] at hab
    · simp [h1] at hbc

theorem keyPairLe_total : ∀ x y, keyPairLe x y = true ∨ keyPairLe y x = true := by
  intro x y
  unfold keyPairLe
  by_cases h1 : x.1 < y.1
  · exact Or.inl (by simp [h1])
  · by_cases h2 : y.1 < x.1
    · exact Or.inr (by simp [h2])
    · have he : x.1 = y.1 := by omega
      rcases strLeB_total x.2 y.2 with h3 | h3
      · exact Or.inl (by simp [he, h3])
      · exact Or.inr (by simp [he.symm, h3])

theorem keyPairLe_trans : ∀ x y z, keyPairLe x y = true → keyPairLe y z = true →
    keyPairLe x z = true := by
  intro x y z hxy hyz
  unfold keyPairLe at hxy hyz ⊢
  simp only [Bool.or_eq_true, Bool.and_eq_true, decide_eq_true_eq] at hxy hyz ⊢
  rcases hxy with h1 | ⟨h1, h1'⟩
  · rcases hyz with h2 | ⟨h2, _⟩
    · exact Or.inl (by omega)
    · exact Or.inl (by omega)
  · rcases hyz with h2 | ⟨h2, h2'⟩
    · exact Or.inl (by omega)
    · exact Or.inr ⟨by omega, strLeB_trans _ _ _ h1' h2'⟩

theorem pivotDescLe_eq_keyPairLe (a b : EventD) :
    pivotDescLe a b = keyPairLe (pivotKey b) (pivotKey a) := rfl

theorem pivotDescLe_total : ∀ a b, pivotDescLe a b = true ∨ pivotDescLe b a = true := by
  intro a b
  rw [pivotDescLe_eq_keyPairLe, pivotDescLe_eq_keyPairLe]
  rcases keyPairLe_total (pivotKey b) (pivotKey a) with h | h
  · exact Or.inl h
  · exact Or.inr h

theorem pivotDescLe_trans : ∀ a b c, pivotDescLe a b = true → pivotDescLe b c = true →
    pivotDescLe a c = true := by
  intro a b c h1 h2
  rw [pivotDescLe_eq_keyPairLe] at h1 h2 ⊢
  exact keyPairLe_trans _ _ _ h2 h1

theorem rankDescLe_eq_keyPairLe (a b : CitationD) :
    rankDescLe a b = keyPairLe (rankKey b) (rankKey a) := rfl

theorem rankDescLe_total : ∀ a b, rankDescLe a b = true ∨ rankDescLe b a = true := by
  intro a b
  rw [rankDescLe_eq_keyPairLe, rankDescLe_eq_keyPairLe]
  rcases keyPairLe_total (rankKey b) (rankKey a) with h | h
  · exact Or.inl h
  · exact Or.inr h

theorem rankDescLe_trans : ∀ a b c, rankDescLe a b = true → rankDescLe b c = true →
    rankDescLe a c = true := by
  intro a b c h1 h2
  rw [rankDescLe_eq_keyPairLe] at h1 h2 ⊢
  exact keyPairLe_trans _ _ _ h2 h1

theorem dateAscLe_total : ∀ a b : EventD, dateAscLe a b = true ∨ dateAscLe b a = true := by
  intro a b
  exact strLeB_total _ _

theorem dateAscLe_trans : ∀ a b c : EventD, dateAscLe a b = true → dateAscLe b c = true →
    dateAscLe a c = true := by
  intro a b c h1 h2
  exact strLeB_trans _ _ _ h1 h2

/-! ## Claim theorems -/

/-- C2 counterexample: on a failure with no API key configured, `query_llm`
returns the non-empty sentinel text, not the empty string; and
`analyze_text` re-raises the failure instead of returning an empty string.
This refutes the claim that the generation adapter returns the empty string
and never raises on every failure. -/
theorem query_llm_failure_not_empty_cex :
    query_llm none (Except.error (strL "network unreachable")) = llmNotAvailableMsg ∧
    llmNotAvailableMsg ≠ ([] : List Char) ∧
    analyze_text (Except.error (strL "timeout"))
      = Except.error (strL "OpenRouter API request failed: timeout") := by
  refine ⟨rfl, by decide, ?_⟩
  show Except.error (strL "OpenRouter API request failed: " ++ strL "timeout") = _
  exact congrArg Except.error (by decide)

/-- C2 (amended): `query_llm` is total (never raises) but returns non-empty
diagnostic strings on failure — the missing-key sentinel, or the text
`Analysis failed: ...` on a request error — while `analyze_text` propagates
every request failure as an exception; the empty-string treatment of
generation failures happens only at the call site in `main`. -/
theorem generation_adapter_failure_behavior :
    (∀ net, query_llm none net = llmNotAvailableMsg ∧ query_llm none net ≠ []) ∧
    (∀ k e, query_llm (some k) (Except.error e) = strL "Analysis failed: " ++ e ∧
      query_llm (some k) (Except.error e) ≠ []) ∧
    (∀ k c, query_llm (some k) (Except.ok c) = c) ∧
    (∀ e, analyze_text (Except.error e)
      = Except.error (strL "OpenRouter API request failed: " ++ e)) := by
  refine ⟨fun net => ⟨rfl, by show llmNotAvailableMsg ≠ []; decide⟩,
    fun k e => ⟨rfl, ?_⟩, fun k c => rfl, fun e => rfl⟩
  show strL "Analysis failed: " ++ e ≠ []
  simp [strL]

/-- C5 counterexample: `_norm_date` of src/ops_extractor.py accepts the
eight-digit string `00010101` and yields `0001-01-01`, whose year 1 lies far
below 1900 — there is no range check — and `to_extract` stores that date on
the extracted event.  This refutes the claim that every normalized event
date satisfies `1900 ≤ year ≤ currentYear+1`. -/
theorem norm_date_out_of_range_cex :
    _norm_date (some (strL "00010101")) = some (strL "0001-01-01") ∧
    digitsToNat ((strL "0001-01-01").take 4) = 1 ∧ (1 : Nat) < 1900 ∧
    (to_extract_events 0 [[⟨some (strL "AK"), some (strL "00010101"), none⟩]]).map EventD.date
      = [some (strL "0001-01-01")] := by
  decide

/-- C5 (amended): the `normalize_date_to_iso` of src/app.py indeed enforces
`1900 ≤ year ≤ currentYear+1` (trying strict eight-digit parsing for
eight-digit inputs and the fuzzy parser otherwise, and returning no date on
any failure), but the `_norm_date` of src/ops_extractor.py only reshapes
strict eight-digit strings, performs no range check, and never falls back to
a fuzzy parse, so events extracted by `to_extract` may carry dates outside
the range. -/
theorem date_normalization_amended
    (nowYear : Nat) (fuzzy : List Char → Option PDate) (raw : Option (List Char))
    (d : PDate) (s : List Char)
    (h : normalize_date_to_iso nowYear fuzzy raw = some d)
    (hs : ¬ ((pyStrip s).length = 8 ∧ (pyStrip s).all Char.isDigit = true)) :
    (1900 ≤ d.year ∧ d.year ≤ nowYear + 1) ∧
    _norm_date (some s) = none ∧
    _norm_date (some (strL "00010101")) = some (strL "0001-01-01") := by
  refine ⟨?_, ?_, by decide⟩
  · cases raw with
    | none => exact absurd h (by simp [normalize_date_to_iso])
    | some s0 =>
      dsimp only [normalize_date_to_iso] at h
      by_cases h0 : s0 = []
      · rw [if_pos h0] at h
        exact absurd h (by simp)
      · rw [if_neg h0] at h
        cases hdt : (if is8Digits (pyStrip s0) then parse_yyyymmdd (pyStrip s0)
            else fuzzy (pyStrip s0)) with
        | none =>
          rw [hdt] at h
          exact absurd h (by simp)
        | some dt =>
          rw [hdt] at h
          dsimp only at h
          by_cases hyr : dt.year < 1900 ∨ dt.year > nowYear + 1
          · rw [if_pos hyr] at h
            exact absurd h (by simp)
          · rw [if_neg hyr] at h
            have hd : dt = d := by injection h
            subst hd
            push_neg at hyr
            omega
  · dsimp only [_norm_date]
    by_cases h0 : s = []
    · rw [if_pos h0]
    · rw [if_neg h0, if_neg hs]

/-- C5 witness: the amended theorem applied at the concrete inputs
`20020605` (accepted, year 2002 in range) and `hello` (rejected). -/
theorem date_normalization_amended_witness :
    (1900 ≤ (2002 : Nat) ∧ (2002 : Nat) ≤ 2025 + 1) ∧
    _norm_date (some (strL "hello")) = none ∧
    _norm_date (some (strL "00010101")) = some (strL "0001-01-01") :=
  date_normalization_amended 2025 (fun _ => none) (some (strL "20020605"))
    ⟨2002, 6, 5⟩ (strL "hello") (by decide) (by decide)

/-! ### Escaping lemmas for C10 -/

theorem escCharApp_no_quote (c : Char) : '"' ∉ escCharApp c := by
  unfold escCharApp
  by_cases h1 : c = '&'
  · rw [if_pos h1]; decide
  rw [if_neg h1]
  by_cases h2 : c = '<'
  · rw [if_pos h2]; decide
  rw [if_neg h2]
  by_cases h3 : c = '>'
  · rw [if_pos h3]; decide
  rw [if_neg h3]
  by_cases h4 : c = '"'
  · rw [if_pos h4]; decide
  rw [if_neg h4]
  by_cases h5 : c = Char.ofNat 39
  · rw [if_pos h5]; decide
  rw [if_neg h5]
  by_cases h6 : c = '\n'
  · rw [if_pos h6]; decide
  rw [if_neg h6]
  intro hm
  simp at hm
  exact h4 hm.symm

theorem escCharApp_no_apos (c : Char) : Char.ofNat 39 ∉ escCharApp c := by
  unfold escCharApp
  by_cases h1 : c = '&'
  · rw [if_pos h1]; decide
  rw [if_neg h1]
  by_cases h2 : c = '<'
  · rw [if_pos h2]; decide
  rw [if_neg h2]
  by_cases h3 : c = '>'
  · rw [if_pos h3]; decide
  rw [if_neg h3]
  by_cases h4 : c = '"'
  · rw [if_pos h4]; decide
  rw [if_neg h4]
  by_cases h5 : c = Char.ofNat 39
  · rw [if_pos h5]; decide
  rw [if_neg h5]
  by_cases h6 : c = '\n'
  · rw [if_pos h6]; decide
  rw [if_neg h6]
  intro hm
  simp at hm
  exact h5 hm.symm

theorem escCharApp_no_lt (c : Char) (hc : c ≠ '\n') : '<' ∉ escCharApp c := by
  unfold escCharApp
  by_cases h1 : c = '&'
  · rw [if_pos h1]; decide
  rw [if_neg h1]
  by_cases h2 : c = '<'
  · rw [if_pos h2]; decide
  rw [if_neg h2]
  by_cases h3 : c = '>'
  · rw [if_pos h3]; decide
  rw [if_neg h3]
  by_cases h4 : c = '"'
  · rw [if_pos h4]; decide
  rw [if_neg h4]
  by_cases h5 : c = Char.ofNat 39
  · rw [if_pos h5]; decide
  rw [if_neg h5]
  by_cases h6 : c = '\n'
  · exact absurd h6 hc
  rw [if_neg h6]
  intro hm
  simp at hm
  exact h2 hm.symm

theorem escCharApp_no_gt (c : Char) (hc : c ≠ '\n') : '>' ∉ escCharApp c := by
  unfold escCharApp
  by_cases h1 : c = '&'
  · rw [if_pos h1]; decide
  rw [if_neg h1]
  by_cases h2 : c = '<'
  · rw [if_pos h2]; decide
  rw [if_neg h2]
  by_cases h3 : c = '>'
  · rw [if_pos h3]; decide
  rw [if_neg h3]
  by_cases h4 : c = '"'
  · rw [if_pos h4]; decide
  rw [if_neg h4]
  by_cases h5 : c = Char.ofNat 39
  · rw [if_pos h5]; decide
  rw [if_neg h5]
  by_cases h6 : c = '\n'
  · exact absurd h6 hc
  rw [if_neg h6]
  intro hm
  simp at hm
  exact h3 hm.symm

theorem escCharRep_no_quote (c : Char) : '"' ∉ escCharRep c := by
  unfold escCharRep
  by_cases h1 : c = '&'
  · rw [if_pos h1]; decide
  rw [if_neg h1]
  by_cases h2 : c = '<'
  · rw [if_pos h2]; decide
  rw [if_neg h2]
  by_cases h3 : c = '>'
  · rw [if_pos h3]; decide
  rw [if_neg h3]
  by_cases h4 : c = '"'
  · rw [if_pos h4]; decide
  rw [if_neg h4]
  by_cases h5 : c = '\n'
  · rw [if_pos h5]; decide
  rw [if_neg h5]
  intro hm
  simp at hm
  exact h4 hm.symm

theorem escCharRep_no_lt (c : Char) (hc : c ≠ '\n') : '<' ∉ escCharRep c := by
  unfold escCharRep
  by_cases h1 : c = '&'
  · rw [if_pos h1]; decide
  rw [if_neg h1]
  by_cases h2 : c = '<'
  · rw [if_pos h2]; decide
  rw [if_neg h2]
  by_cases h3 : c = '>'
  · rw [if_pos h3]; decide
  rw [if_neg h3]
  by_cases h4 : c = '"'
  · rw [if_pos h4]; decide
  rw [if_neg h4]
  by_cases h5 : c = '\n'
  · exact absurd h5 hc
  rw [if_neg h5]
  intro hm
  simp at hm
  exact h2 hm.symm

theorem escCharRep_no_gt (c : Char) (hc : c ≠ '\n') : '>' ∉ escCharRep c := by
  unfold escCharRep
  by_cases h1 : c = '&'
  · rw [if_pos h1]; decide
  rw [if_neg h1]
  by_cases h2 : c = '<'
  · rw [if_pos h2]; decide
  rw [if_neg h2]
  by_cases h3 : c = '>'
  · rw [if_pos h3]; decide
  rw [if_neg h3]
  by_cases h4 : c = '"'
  · rw [if_pos h4]; decide
  rw [if_neg h4]
  by_cases h5 : c = '\n'
  · exact absurd h5 hc
  rw [if_neg h5]
  intro hm
  simp at hm
  exact h3 hm.symm

theorem flatMap_not_mem {f : Char → List Char} {x : Char} {l : List Char}
    (h : ∀ c ∈ l, x ∉ f c) : x ∉ l.flatMap f := by
  induction l with
  | nil => simp
  | cons c rest ih =>
    simp only [List.flatMap_cons, List.mem_append]
    intro hm
    rcases hm with hm | hm
    · exact h c (List.mem_cons_self c rest) hm
    · exact ih (fun d hd => h d (List.mem_cons_of_mem c hd)) hm

/-- C10 counterexample: the `render_to_html` that is in scope in the report
path (src/app.py 143-148) does not wrap its output in a paragraph element,
refuting the claim as stated; the reporting.py variant does. -/
theorem render_to_html_no_paragraph_cex :
    render_to_html (strL "x") = strL "x" ∧
    render_to_html (strL "x") ≠ strL "<p>x</p>" ∧
    reporting_render_to_html (strL "x") = strL "<p>x</p>" := by
  refine ⟨by decide, by decide, ?_⟩
  show reporting_render_to_html (strL "x") = strL "<p>x</p>"
  decide

/-- C10 (amended): the reporting.py `render_to_html` behaves as the claim
states (escape `&`, `<`, `>`, `"`, newline to `<br>`, wrap in a paragraph,
empty for empty input), but the app.py definition of the same name — the one
the report path actually uses — performs the same escaping plus the single
quote and does not wrap the result in a paragraph element.  For both, no
`<`, `>` or `"` of the input survives unescaped: the escaped body of a
newline-free input contains no `<` or `>` at all, and never contains `"`. -/
theorem render_to_html_escaping_amended (l : List Char) (hnl : '\n' ∉ l) :
    ('"' ∉ render_to_html l) ∧ ('<' ∉ render_to_html l) ∧ ('>' ∉ render_to_html l) ∧
    (Char.ofNat 39 ∉ render_to_html l) ∧
    ('"' ∉ l.flatMap escCharRep) ∧ ('<' ∉ l.flatMap escCharRep) ∧
    ('>' ∉ l.flatMap escCharRep) ∧
    reporting_render_to_html [] = [] ∧ render_to_html [] = [] ∧
    (l = [] ∨ reporting_render_to_html l
      = strL "<p>" ++ l.flatMap escCharRep ++ strL "</p>") := by
  have hne : ∀ c ∈ l, c ≠ '\n' := fun c hc he => hnl (he ▸ hc)
  refine ⟨flatMap_not_mem (fun c _ => escCharApp_no_quote c),
    flatMap_not_mem (fun c hc => escCharApp_no_lt c (hne c hc)),
    flatMap_not_mem (fun c hc => escCharApp_no_gt c (hne c hc)),
    flatMap_not_mem (fun c _ => escCharApp_no_apos c),
    flatMap_not_mem (fun c _ => escCharRep_no_quote c),
    flatMap_not_mem (fun c hc => escCharRep_no_lt c (hne c hc)),
    flatMap_not_mem (fun c hc => escCharRep_no_gt c (hne c hc)),
    rfl, rfl, ?_⟩
  by_cases h0 : l = []
  · exact Or.inl h0
  · exact Or.inr (by rw [reporting_render_to_html, if_neg h0])

/-- C10 witness: the amended theorem applied to the newline-free input `a&b`. -/
theorem render_to_html_escaping_amended_witness :
    ('"' ∉ render_to_html (strL "a&b")) ∧ ('<' ∉ render_to_html (strL "a&b")) ∧
    ('>' ∉ render_to_html (strL "a&b")) ∧
    (Char.ofNat 39 ∉ render_to_html (strL "a&b")) ∧
    ('"' ∉ (strL "a&b").flatMap escCharRep) ∧ ('<' ∉ (strL "a&b").flatMap escCharRep) ∧
    ('>' ∉ (strL "a&b").flatMap escCharRep) ∧
    reporting_render_to_html [] = [] ∧ render_to_html [] = [] ∧
    (strL "a&b" = [] ∨ reporting_render_to_html (strL "a&b")
      = strL "<p>" ++ (strL "a&b").flatMap escCharRep ++ strL "</p>") :=
  render_to_html_escaping_amended (strL "a&b") (by decide)

/-! ### C6: the coverage banner -/

/-- C6: every assembled report contains exactly one four-count coverage
banner (the `coverage-banner` div of the template, reporting the
events/claims/citations/designations counts), for every context and
whatever the audit outcome; the per-run injection adds only the two-count
coverage paragraph, and the deduplication pass does not touch the banner. -/
theorem coverage_banner_exactly_once (ctx : ReportCtx) (fails : List (List Char)) :
    countCoverageBanners (assemble_final_report ctx fails) = 1 := by
  have hdoc : dedup_coverage_lines
      (insert_coverage_line ctx.cov_events ctx.cov_citations (build_html_report ctx))
      = [RBlock.headerBlock ctx.patent_number ctx.generated_at,
         RBlock.injectedCoverageLine ctx.cov_events ctx.cov_citations,
         RBlock.coverageBanner ctx.cov_events ctx.cov_claims ctx.cov_citations
           ctx.cov_designations,
         RBlock.sectionBlock (strL "Executive Summary") ctx.analysisES,
         RBlock.sectionBlock (strL "Timeline Analysis") ctx.analysisTA,
         RBlock.sectionBlock (strL "Prior Art Analysis") ctx.analysisPA,
         RBlock.sectionBlock (strL "Evidence-Linked Recommendations") ctx.analysisRC] := by
    rw [build_html_report]
    rw [insert_coverage_line]
    simp [dedup_coverage_lines, isInjectedCoverage]
  unfold assemble_final_report
  rw [hdoc]
  by_cases hf : fails = []
  · rw [if_pos hf]
    simp [countCoverageBanners, List.countP_cons, List.countP_nil]
  · rw [if_neg hf]
    simp [countCoverageBanners, List.countP_cons, List.countP_nil]

/-! ### C7: top pivotal events -/

theorem pairwise_take_drop {α : Type} {R : α → α → Prop} {l : List α}
    (h : l.Pairwise R) (n : Nat) :
    ∀ x ∈ l.take n, ∀ y ∈ l.drop n, R x y := by
  have h' : (l.take n ++ l.drop n).Pairwise R := by
    rw [List.take_append_drop]
    exact h
  exact (List.pairwise_append.mp h').2.2

/-- C7: for non-empty event lists, the pivotal-events selection keeps at
most three events, every selected event is one of the normalized input
events, the selection is displayed in ascending date order, the priority
table is exactly grant=5, grant_intended=no_opposition=4,
opposition=lapse_national=3, scope_narrowed=term_changed=2,
examination_requested=designation_recorded=1, every selected event
dominates every non-selected event in the descending
(score, most-recent-date) order, and the rendered block is the line-by-line
rendering of that selection. -/
theorem render_top_pivotal_events_spec
    (nowYear : Nat) (fuzzy : List Char → Option PDate) (events : List EventD)
    (x y : EventD)
    (h : events ≠ [])
    (hx : x ∈ (insSort pivotDescLe (events.map (normalize_event nowYear fuzzy))).take 3)
    (hy : y ∈ (insSort pivotDescLe (events.map (normalize_event nowYear fuzzy))).drop 3) :
    (top_pivotal_selection nowYear fuzzy events).length ≤ 3 ∧
    (top_pivotal_selection nowYear fuzzy events).Pairwise
      (fun a b => dateAscLe a b = true) ∧
    ((top_pivotal_selection nowYear fuzzy events).all
      (fun e => decide (e ∈ events.map (normalize_event nowYear fuzzy)))) = true ∧
    pivotDescLe x y = true ∧
    x ∈ events.map (normalize_event nowYear fuzzy) ∧
    pivotPriority (strL "grant") = 5 ∧
    pivotPriority (strL "grant_intended") = 4 ∧
    pivotPriority (strL "no_opposition") = 4 ∧
    pivotPriority (strL "opposition") = 3 ∧
    pivotPriority (strL "lapse_national") = 3 ∧
    pivotPriority (strL "scope_narrowed") = 2 ∧
    pivotPriority (strL "term_changed") = 2 ∧
    pivotPriority (strL "examination_requested") = 1 ∧
    pivotPriority (strL "designation_recorded") = 1 ∧
    render_top_pivotal_events nowYear fuzzy events
      = pivotLines events 1 (top_pivotal_selection nowYear fuzzy events) := by
  have hsel : top_pivotal_selection nowYear fuzzy events
      = insSort dateAscLe
          ((insSort pivotDescLe (events.map (normalize_event nowYear fuzzy))).take 3) := by
    rw [top_pivotal_selection, if_neg h]
  refine ⟨?_, ?_, ?_, ?_, ?_, by decide, by decide, by decide, by decide, by decide,
    by decide, by decide, by decide, by decide, rfl⟩
  · rw [hsel, length_insSort, List.length_take]
    omega
  · rw [hsel]
    exact insSort_pairwise dateAscLe_total dateAscLe_trans _
  · rw [hsel]
    rw [List.all_eq_true]
    intro e he
    have h1 : e ∈ (insSort pivotDescLe (events.map (normalize_event nowYear fuzzy))).take 3 :=
      mem_insSort.mp he
    have h2 : e ∈ insSort pivotDescLe (events.map (normalize_event nowYear fuzzy)) :=
      List.take_subset 3 _ h1
    exact decide_eq_true (mem_insSort.mp h2)
  · have hsorted : (insSort pivotDescLe
        (events.map (normalize_event nowYear fuzzy))).Pairwise
        (fun a b => pivotDescLe a b = true) :=
      insSort_pairwise pivotDescLe_total pivotDescLe_trans _
    exact pairwise_take_drop hsorted 3 x hx y hy
  · exact mem_insSort.mp (List.take_subset 3 _ hx)

/-- C7 witness: the pivotal-events theorem applied to a concrete four-event
prosecution history (INTG, 26N, GBPC, 17P), where the normalized 26N event
is selected and the normalized 17P event is dropped. -/
theorem render_top_pivotal_events_spec_witness :
    let E : List EventD :=
      [⟨some (strL "2016-12-09"), some (strL "INTG"), none, some [strL "unknown"], none⟩,
       ⟨some (strL "2017-01-01"), some (strL "26N"), none, some [strL "unknown"], none⟩,
       ⟨some (strL "2018-05-05"), some (strL "GBPC"), none, some [strL "unknown"], none⟩,
       ⟨some (strL "2015-03-03"), some (strL "17P"), none, some [strL "unknown"], none⟩]
    let x : EventD :=
      ⟨some (strL "2017-01-01"), some (strL "26N"), some (strL "no opposition filed"),
        some [strL "no_opposition"], none⟩
    let y : EventD :=
      ⟨some (strL "2015-03-03"), some (strL "17P"), some (strL "examination request filed"),
        some [strL "examination_requested"], none⟩
    (top_pivotal_selection 2025 (fun _ => none) E).length ≤ 3 ∧
    (top_pivotal_selection 2025 (fun _ => none) E).Pairwise
      (fun a b => dateAscLe a b = true) ∧
    ((top_pivotal_selection 2025 (fun _ => none) E).all
      (fun e => decide (e ∈ E.map (normalize_event 2025 (fun _ => none))))) = true ∧
    pivotDescLe x y = true ∧
    x ∈ E.map (normalize_event 2025 (fun _ => none)) ∧
    pivotPriority (strL "grant") = 5 ∧
    pivotPriority (strL "grant_intended") = 4 ∧
    pivotPriority (strL "no_opposition") = 4 ∧
    pivotPriority (strL "opposition") = 3 ∧
    pivotPriority (strL "lapse_national") = 3 ∧
    pivotPriority (strL "scope_narrowed") = 2 ∧
    pivotPriority (strL "term_changed") = 2 ∧
    pivotPriority (strL "examination_requested") = 1 ∧
    pivotPriority (strL "designation_recorded") = 1 ∧
    render_top_pivotal_events 2025 (fun _ => none) E
      = pivotLines E 1 (top_pivotal_selection 2025 (fun _ => none) E) :=
  render_top_pivotal_events_spec 2025 (fun _ => none)
    [⟨some (strL "2016-12-09"), some (strL "INTG"), none, some [strL "unknown"], none⟩,
     ⟨some (strL "2017-01-01"), some (strL "26N"), none, some [strL "unknown"], none⟩,
     ⟨some (strL "2018-05-05"), some (strL "GBPC"), none, some [strL "unknown"], none⟩,
     ⟨some (strL "2015-03-03"), some (strL "17P"), none, some [strL "unknown"], none⟩]
    ⟨some (strL "2017-01-01"), some (strL "26N"), some (strL "no opposition filed"),
      some [strL "no_opposition"], none⟩
    ⟨some (strL "2015-03-03"), some (strL "17P"), some (strL "examination request filed"),
      some [strL "examination_requested"], none⟩
    (by decide) (by decide) (by decide)

/-! ### C8: ranked citations -/

/-- C8: for non-empty citation lists, the ranked-citations selection keeps at
most five citations, all drawn from the input, ordered by descending
`(kind_score, id)` key — kind priority examiner(3) > legal(2) > applicant(1)
> bibliographic(0), ties by identifier — every kept citation dominates every
dropped one, risk labels are novelty for examiner, obviousness for legal and
screening-only for every other kind, and the rendered block is the
line-by-line rendering of that selection. -/
theorem render_ranked_citations_spec
    (citations : List CitationD) (x y : CitationD) (k : List Char)
    (h : citations ≠ [])
    (hx : x ∈ (insSort rankDescLe citations).take 5)
    (hy : y ∈ (insSort rankDescLe citations).drop 5)
    (hk1 : k ≠ strL "examiner") (hk2 : k ≠ strL "legal") :
    (ranked_citations_selection citations).length ≤ 5 ∧
    (ranked_citations_selection citations).Pairwise
      (fun a b => rankDescLe a b = true) ∧
    ((ranked_citations_selection citations).all
      (fun c => decide (c ∈ citations))) = true ∧
    rankDescLe x y = true ∧
    x ∈ citations ∧
    kind_score ⟨none, some (strL "examiner"), none, none, none, none, none⟩ = 3 ∧
    kind_score ⟨none, some (strL "legal"), none, none, none, none, none⟩ = 2 ∧
    kind_score ⟨none, some (strL "applicant"), none, none, none, none, none⟩ = 1 ∧
    kind_score ⟨none, some (strL "bibliographic"), none, none, none, none, none⟩ = 0 ∧
    kind_score ⟨none, none, none, none, none, none, none⟩ = 0 ∧
    riskLabel (strL "examiner") = strL "novelty" ∧
    riskLabel (strL "legal") = strL "obviousness" ∧
    riskLabel k = strL "screening-only" ∧
    render_ranked_citations citations
      = rankedLines 1 (ranked_citations_selection citations) := by
  refine ⟨?_, ?_, ?_, ?_, ?_, by decide, by decide, by decide, by decide, by decide,
    by decide, by decide, ?_, ?_⟩
  · rw [ranked_citations_selection, List.length_take]
    omega
  · rw [ranked_citations_selection]
    have hsorted : (insSort rankDescLe citations).Pairwise
        (fun a b => rankDescLe a b = true) :=
      insSort_pairwise rankDescLe_total rankDescLe_trans _
    exact List.Pairwise.sublist (List.take_sublist 5 _) hsorted
  · rw [ranked_citations_selection, List.all_eq_true]
    intro c hc
    exact decide_eq_true (mem_insSort.mp (List.take_subset 5 _ hc))
  · have hsorted : (insSort rankDescLe citations).Pairwise
        (fun a b => rankDescLe a b = true) :=
      insSort_pairwise rankDescLe_total rankDescLe_trans _
    exact pairwise_take_drop hsorted 5 x hx y hy
  · exact mem_insSort.mp (List.take_subset 5 _ hx)
  · unfold riskLabel
    rw [if_neg hk1, if_neg hk2]
    split_ifs <;> rfl
  · rw [render_ranked_citations, if_neg h]

/-- C8 witness: the ranked-citations theorem applied to six concrete
citations (one examiner, one legal, one applicant, three bibliographic);
the examiner citation is kept, the lowest bibliographic one is dropped. -/
theorem render_ranked_citations_spec_witness :
    let cs : List CitationD :=
      [⟨some (strL "EPX"), some (strL "examiner"), none, none, none, none, none⟩,
       ⟨some (strL "EPL"), some (strL "legal"), none, none, none, none, none⟩,
       ⟨some (strL "EPA"), some (strL "applicant"), none, none, none, none, none⟩,
       ⟨some (strL "B1"), some (strL "bibliographic"), none, none, none, none, none⟩,
       ⟨some (strL "B2"), some (strL "bibliographic"), none, none, none, none, none⟩,
       ⟨some (strL "B3"), some (strL "bibliographic"), none, none, none, none, none⟩]
    let x : CitationD := ⟨some (strL "EPX"), some (strL "examiner"), none, none, none, none, none⟩
    let y : CitationD := ⟨some (strL "B1"), some (strL "bibliographic"), none, none, none, none, none⟩
    (ranked_citations_selection cs).length ≤ 5 ∧
    (ranked_citations_selection cs).Pairwise (fun a b => rankDescLe a b = true) ∧
    ((ranked_citations_selection cs).all (fun c => decide (c ∈ cs))) = true ∧
    rankDescLe x y = true ∧
    x ∈ cs ∧
    kind_score ⟨none, some (strL "examiner"), none, none, none, none, none⟩ = 3 ∧
    kind_score ⟨none, some (strL "legal"), none, none, none, none, none⟩ = 2 ∧
    kind_score ⟨none, some (strL "applicant"), none, none, none, none, none⟩ = 1 ∧
    kind_score ⟨none, some (strL "bibliographic"), none, none, none, none, none⟩ = 0 ∧
    kind_score ⟨none, none, none, none, none, none, none⟩ = 0 ∧
    riskLabel (strL "examiner") = strL "novelty" ∧
    riskLabel (strL "legal") = strL "obviousness" ∧
    riskLabel (strL "unknown") = strL "screening-only" ∧
    render_ranked_citations cs = rankedLines 1 (ranked_citations_selection cs) :=
  render_ranked_citations_spec
    [⟨some (strL "EPX"), some (strL "examiner"), none, none, none, none, none⟩,
     ⟨some (strL "EPL"), some (strL "legal"), none, none, none, none, none⟩,
     ⟨some (strL "EPA"), some (strL "applicant"), none, none, none, none, none⟩,
     ⟨some (strL "B1"), some (strL "bibliographic"), none, none, none, none, none⟩,
     ⟨some (strL "B2"), some (strL "bibliographic"), none, none, none, none, none⟩,
     ⟨some (strL "B3"), some (strL "bibliographic"), none, none, none, none, none⟩]
    ⟨some (strL "EPX"), some (strL "examiner"), none, none, none, none, none⟩
    ⟨some (strL "B1"), some (strL "bibliographic"), none, none, none, none, none⟩
    (strL "unknown")
    (by decide) (by decide) (by decide) (by decide) (by decide)

/-! ### C4: the token index -/

theorem tokEntriesFrom_keys (ty : TokType) :
    ∀ vs i, (tokEntriesFrom ty i vs).map Prod.fst
      = (List.range vs.length).map (fun j => (⟨ty, natDigits (i + j)⟩ : Tok)) := by
  intro vs
  induction vs with
  | nil => intro i; rfl
  | cons v rest ih =>
    intro i
    simp only [tokEntriesFrom, List.map_cons, List.length_cons,
      List.range_succ_eq_map, List.map_map]
    congr 1
    rw [ih (i + 1)]
    apply List.map_congr_left
    intro j _
    simp only [Function.comp_apply]
    congr 2
    omega

theorem tokEntriesFrom_keys_mem {ty : TokType} {t : Tok} :
    ∀ vs i, t ∈ (tokEntriesFrom ty i vs).map Prod.fst →
      t.ty = ty ∧ ∃ j, j < vs.length ∧ t.digits = natDigits (i + j) := by
  intro vs
  induction vs with
  | nil => intro i h; simp [tokEntriesFrom] at h
  | cons v rest ih =>
    intro i h
    simp only [tokEntriesFrom, List.map_cons, List.mem_cons] at h
    rcases h with h | h
    · refine ⟨by rw [h], 0, by simp, by rw [h]; simp⟩
    · obtain ⟨hty, j, hj, hd⟩ := ih (i + 1) h
      exact ⟨hty, j + 1, by simp; omega, by rw [hd]; congr 1; omega⟩

theorem tokEntriesFrom_keys_nodup (ty : TokType) :
    ∀ vs i, ((tokEntriesFrom ty i vs).map Prod.fst).Nodup := by
  intro vs
  induction vs with
  | nil => intro i; simp [tokEntriesFrom]
  | cons v rest ih =>
    intro i
    simp only [tokEntriesFrom, List.map_cons]
    refine List.nodup_cons.mpr ⟨?_, ih (i + 1)⟩
    intro hmem
    obtain ⟨_, j, _, hd⟩ := tokEntriesFrom_keys_mem rest (i + 1) hmem
    have : i = i + 1 + j := natDigits_inj hd
    omega

theorem addTokenEntries_eq_append (ty : TokType) :
    ∀ vs i (m : List (Tok × TokMeta)),
      (∀ t ∈ m.map Prod.fst, t.ty ≠ ty ∨ digitsToNat t.digits < i) →
      addTokenEntries ty vs i m = m ++ tokEntriesFrom ty i vs := by
  intro vs
  induction vs with
  | nil => intro i m _; simp [addTokenEntries, tokEntriesFrom]
  | cons v rest ih =>
    intro i m hfresh
    have hnotin : m.any (fun p => p.1 = (⟨ty, natDigits i⟩ : Tok)) = false := by
      rw [List.any_eq_false]
      intro p hp
      simp only [decide_eq_true_eq]
      intro hk
      rcases hfresh p.1 (List.mem_map_of_mem Prod.fst hp) with h1 | h1
      · exact h1 (by rw [hk])
      · rw [hk] at h1
        simp only [digitsToNat_natDigits] at h1
        omega
    have hins : dictInsert m ⟨ty, natDigits i⟩ v = m ++ [(⟨ty, natDigits i⟩, v)] := by
      unfold dictInsert
      rw [if_neg]
      intro hc
      rw [hnotin] at hc
      exact Bool.false_ne_true hc
    have hfresh2 : ∀ t ∈ (m ++ [((⟨ty, natDigits i⟩ : Tok), v)]).map Prod.fst,
        t.ty ≠ ty ∨ digitsToNat t.digits < i + 1 := by
      intro t ht
      rw [List.map_append] at ht
      rcases List.mem_append.mp ht with ht | ht
      · rcases hfresh t ht with h1 | h1
        · exact Or.inl h1
        · exact Or.inr (by omega)
      · simp at ht
        rw [ht]
        simp [digitsToNat_natDigits]
    simp only [addTokenEntries]
    rw [hins, ih (i + 1) (m ++ [((⟨ty, natDigits i⟩ : Tok), v)]) hfresh2]
    simp [tokEntriesFrom, List.append_assoc]

theorem tokEntriesFrom_map_eq (ex : Extract) :
    build_token_index ex
      = tokEntriesFrom TokType.evt 1 (ex.events.map evtMetaOf)
        ++ (tokEntriesFrom TokType.cit 1 (ex.citations.map citMetaOf)
          ++ (tokEntriesFrom TokType.clm 1 (ex.claims.map clmMetaOf)
            ++ tokEntriesFrom TokType.dsg 1 (ex.designations.map dsgMetaOf))) := by
  unfold build_token_index
  rw [addTokenEntries_eq_append TokType.evt _ 1 [] (by simp)]
  rw [List.nil_append]
  rw [addTokenEntries_eq_append TokType.cit _ 1 _ ?hcit]
  rw [addTokenEntries_eq_append TokType.clm _ 1 _ ?hclm]
  rw [addTokenEntries_eq_append TokType.dsg _ 1 _ ?hdsg]
  · simp [List.append_assoc]
  case hcit =>
    intro t ht
    obtain ⟨hty, _⟩ := tokEntriesFrom_keys_mem _ 1 ht
    exact Or.inl (by rw [hty]; intro hc; cases hc)
  case hclm =>
    intro t ht
    simp only [List.map_append, List.mem_append] at ht
    rcases ht with ht | ht
    · obtain ⟨hty, _⟩ := tokEntriesFrom_keys_mem _ 1 ht
      exact Or.inl (by rw [hty]; intro hc; cases hc)
    · obtain ⟨hty, _⟩ := tokEntriesFrom_keys_mem _ 1 ht
      exact Or.inl (by rw [hty]; intro hc; cases hc)
  case hdsg =>
    intro t ht
    simp only [List.map_append, List.mem_append] at ht
    rcases ht with (ht | ht) | ht
    · obtain ⟨hty, _⟩ := tokEntriesFrom_keys_mem _ 1 ht
      exact Or.inl (by rw [hty]; intro hc; cases hc)
    · obtain ⟨hty, _⟩ := tokEntriesFrom_keys_mem _ 1 ht
      exact Or.inl (by rw [hty]; intro hc; cases hc)
    · obtain ⟨hty, _⟩ := tokEntriesFrom_keys_mem _ 1 ht
      exact Or.inl (by rw [hty]; intro hc; cases hc)

theorem range_map_shift (ty : TokType) (n : Nat) :
    (List.range n).map (fun j => (⟨ty, natDigits (1 + j)⟩ : Tok))
      = (List.range n).map (fun j => (⟨ty, natDigits (j + 1)⟩ : Tok)) := by
  apply List.map_congr_left
  intro j _
  congr 2
  omega

theorem tok_range_nodup (ty : TokType) (n : Nat) :
    ((List.range n).map (fun j => (⟨ty, natDigits (j + 1)⟩ : Tok))).Nodup := by
  refine List.Nodup.map ?_ (List.nodup_range n)
  intro a b hab
  have : natDigits (a + 1) = natDigits (b + 1) := congrArg Tok.digits hab
  have := natDigits_inj this
  omega

theorem tok_range_mem_ty {ty : TokType} {n : Nat} {t : Tok}
    (h : t ∈ (List.range n).map (fun j => (⟨ty, natDigits (j + 1)⟩ : Tok))) :
    t.ty = ty := by
  simp only [List.mem_map] at h
  obtain ⟨j, _, hj⟩ := h
  rw [← hj]

/-- C4: the token index builder is a pure, deterministic function of the
extract; it is exactly the sequential pairing `TYPE#i ↦ metadata of the
i-th entity` over each of the four entity lists in extraction order, its
keys are exactly `TYPE#1 … TYPE#n` per type — 1-based, no gaps — and no key
is ever reused (the key list has no duplicates). -/
theorem build_token_index_spec (ex : Extract) :
    build_token_index ex
      = tokEntriesFrom TokType.evt 1 (ex.events.map evtMetaOf)
        ++ (tokEntriesFrom TokType.cit 1 (ex.citations.map citMetaOf)
          ++ (tokEntriesFrom TokType.clm 1 (ex.claims.map clmMetaOf)
            ++ tokEntriesFrom TokType.dsg 1 (ex.designations.map dsgMetaOf))) ∧
    (build_token_index ex).map Prod.fst
      = (List.range ex.events.length).map
          (fun j => (⟨TokType.evt, natDigits (j + 1)⟩ : Tok))
        ++ ((List.range ex.citations.length).map
            (fun j => (⟨TokType.cit, natDigits (j + 1)⟩ : Tok))
          ++ ((List.range ex.claims.length).map
              (fun j => (⟨TokType.clm, natDigits (j + 1)⟩ : Tok))
            ++ (List.range ex.designations.length).map
                (fun j => (⟨TokType.dsg, natDigits (j + 1)⟩ : Tok)))) ∧
    ((build_token_index ex).map Prod.fst).Nodup ∧
    build_token_index ex = build_token_index ex := by
  have hmap := tokEntriesFrom_map_eq ex
  have hkeys : (build_token_index ex).map Prod.fst
      = (List.range ex.events.length).map
          (fun j => (⟨TokType.evt, natDigits (j + 1)⟩ : Tok))
        ++ ((List.range ex.citations.length).map
            (fun j => (⟨TokType.cit, natDigits (j + 1)⟩ : Tok))
          ++ ((List.range ex.claims.length).map
              (fun j => (⟨TokType.clm, natDigits (j + 1)⟩ : Tok))
            ++ (List.range ex.designations.length).map
                (fun j => (⟨TokType.dsg, natDigits (j + 1)⟩ : Tok)))) := by
    rw [hmap]
    simp only [List.map_append]
    rw [tokEntriesFrom_keys, tokEntriesFrom_keys, tokEntriesFrom_keys, tokEntriesFrom_keys]
    simp only [List.length_map]
    rw [range_map_shift, range_map_shift, range_map_shift, range_map_shift]
  refine ⟨hmap, hkeys, ?_, rfl⟩
  rw [hkeys]
  have hCD : (((List.range ex.claims.length).map
      (fun j => (⟨TokType.clm, natDigits (j + 1)⟩ : Tok)))
      ++ (List.range ex.designations.length).map
        (fun j => (⟨TokType.dsg, natDigits (j + 1)⟩ : Tok))).Nodup := by
    refine (tok_range_nodup _ _).append (tok_range_nodup _ _) ?_
    intro t ht ht'
    have h1 := tok_range_mem_ty ht
    have h2 := tok_range_mem_ty ht'
    rw [h1] at h2
    cases h2
  have hBCD : (((List.range ex.citations.length).map
      (fun j => (⟨TokType.cit, natDigits (j + 1)⟩ : Tok)))
      ++ (((List.range ex.claims.length).map
        (fun j => (⟨TokType.clm, natDigits (j + 1)⟩ : Tok)))
        ++ (List.range ex.designations.length).map
          (fun j => (⟨TokType.dsg, natDigits (j + 1)⟩ : Tok)))).Nodup := by
    refine (tok_range_nodup _ _).append hCD ?_
    intro t ht ht'
    have h1 := tok_range_mem_ty ht
    rcases List.mem_append.mp ht' with h | h
    · have h2 := tok_range_mem_ty h
      rw [h1] at h2
      cases h2
    · have h2 := tok_range_mem_ty h
      rw [h1] at h2
      cases h2
  refine (tok_range_nodup _ _).append hBCD ?_
  intro t ht ht'
  have h1 := tok_range_mem_ty ht
  rcases List.mem_append.mp ht' with h | h
  · have h2 := tok_range_mem_ty h
    rw [h1] at h2
    cases h2
  · rcases List.mem_append.mp h with h | h
    · have h2 := tok_range_mem_ty h
      rw [h1] at h2
      cases h2
    · have h2 := tok_range_mem_ty h
      rw [h1] at h2
      cases h2

/-! ### C3: the jurisdiction wording substitution -/

theorem pyReplace_no_occurrence {old new : List Char} (hold : old ≠ []) :
    ∀ l, containsSub old l = false → pyReplace old new l = l := by
  intro l
  generalize hn : l.length = n
  induction n using Nat.strong_induction_on generalizing l with
  | _ n ih =>
    intro hc
    cases l with
    | nil => exact pyReplace_nil old new hold
    | cons c rest =>
      simp only [containsSub, Bool.or_eq_false_iff] at hc
      rw [pyReplace_cons_neg old new c rest hold hc.1]
      rw [ih rest.length (by simp at hn; omega) rest rfl hc.2]

theorem wwSubAux_nil (p : Bool) : wwSubAux p [] = [] := by
  unfold wwSubAux
  rfl

theorem wwSubAux_cons_of_match (prev : Bool) (c : Char) (rest : List Char)
    (h : ¬ prev = true ∧ ciPrefixB epTarget (c :: rest) = true
      ∧ wwBoundaryAfter 8 (c :: rest) = true) :
    wwSubAux prev (c :: rest) = epReplacement ++ wwSubAux true ((c :: rest).drop 8) := by
  conv_lhs => rw [wwSubAux]
  rw [if_pos h]

theorem wwSubAux_cons_of_not (prev : Bool) (c : Char) (rest : List Char)
    (h : ¬ (¬ prev = true ∧ ciPrefixB epTarget (c :: rest) = true
      ∧ wwBoundaryAfter 8 (c :: rest) = true)) :
    wwSubAux prev (c :: rest) = c :: wwSubAux (wordCharB c) rest := by
  conv_lhs => rw [wwSubAux]
  rw [if_neg h]

theorem guardrails_Estoppel_eval :
    wwSubAux false (strL "Estoppel") = epReplacement := by
  have h0 : strL "Estoppel" = 'E' :: 's' :: 't' :: 'o' :: 'p' :: 'p' :: 'e' :: 'l' :: [] := by decide
  rw [h0]
  rw [wwSubAux_cons_of_match false 'E' ('s' :: 't' :: 'o' :: 'p' :: 'p' :: 'e' :: 'l' :: []) (by decide)]
  have h1 : (('E' :: 's' :: 't' :: 'o' :: 'p' :: 'p' :: 'e' :: 'l' :: [] : List Char).drop 8) = [] := by decide
  rw [h1, wwSubAux_nil, List.append_nil]

theorem guardrails_estoppels_eval :
    wwSubAux false (strL "estoppels") = strL "estoppels" := by
  have h0 : strL "estoppels" = 'e' :: 's' :: 't' :: 'o' :: 'p' :: 'p' :: 'e' :: 'l' :: 's' :: [] := by decide
  rw [h0]
  rw [wwSubAux_cons_of_not false 'e' ('s' :: 't' :: 'o' :: 'p' :: 'p' :: 'e' :: 'l' :: 's' :: []) (by decide)]
  rw [wwSubAux_cons_of_not (wordCharB 'e') 's' ('t' :: 'o' :: 'p' :: 'p' :: 'e' :: 'l' :: 's' :: []) (by decide)]
  rw [wwSubAux_cons_of_not (wordCharB 's') 't' ('o' :: 'p' :: 'p' :: 'e' :: 'l' :: 's' :: []) (by decide)]
  rw [wwSubAux_cons_of_not (wordCharB 't') 'o' ('p' :: 'p' :: 'e' :: 'l' :: 's' :: []) (by decide)]
  rw [wwSubAux_cons_of_not (wordCharB 'o') 'p' ('p' :: 'e' :: 'l' :: 's' :: []) (by decide)]
  rw [wwSubAux_cons_of_not (wordCharB 'p') 'p' ('e' :: 'l' :: 's' :: []) (by decide)]
  rw [wwSubAux_cons_of_not (wordCharB 'p') 'e' ('l' :: 's' :: []) (by decide)]
  rw [wwSubAux_cons_of_not (wordCharB 'e') 'l' ('s' :: []) (by decide)]
  rw [wwSubAux_cons_of_not (wordCharB 'l') 's' ([]) (by decide)]
  rw [wwSubAux_nil]


theorem app_estoppels_eval :
    pyReplace epTarget epReplacement (strL "estoppels") = epReplacement ++ strL "s" := by
  have h0 : strL "estoppels" = 'e' :: 's' :: 't' :: 'o' :: 'p' :: 'p' :: 'e' :: 'l' :: 's' :: [] := by decide
  rw [h0]
  rw [pyReplace_cons_pos epTarget epReplacement 'e' ('s' :: 't' :: 'o' :: 'p' :: 'p' :: 'e' :: 'l' :: 's' :: []) epTarget_ne_nil (by decide)]
  have h1 : (('e' :: 's' :: 't' :: 'o' :: 'p' :: 'p' :: 'e' :: 'l' :: 's' :: [] : List Char).drop epTarget.length) = ['s'] := by decide
  rw [h1]
  rw [pyReplace_cons_neg epTarget epReplacement 's' [] epTarget_ne_nil (by decide)]
  rw [pyReplace_nil epTarget epReplacement epTarget_ne_nil]
  rfl

/-- C3 counterexample: the substitution actually applied before final
assembly (the `sanitize_ep_language` of src/app.py, which shadows the
guardrails import in `main`) is a case-sensitive `str.replace`: the input
`Estoppel` passes through unchanged, so the sanitized output still contains
a case-insensitive occurrence of the word.  This refutes the claimed
case-insensitive whole-word substitution. -/
theorem sanitize_ep_case_sensitivity_cex :
    sanitize_ep_language (strL "Estoppel") (strL "EP") = strL "Estoppel" ∧
    containsSub epTarget
      ((sanitize_ep_language (strL "Estoppel") (strL "EP")).map Char.toLower) = true := by
  have h1 : sanitize_ep_language (strL "Estoppel") (strL "EP") = strL "Estoppel" := by
    rw [sanitize_ep_language, if_pos rfl]
    exact pyReplace_no_occurrence epTarget_ne_nil _ (by decide)
  refine ⟨h1, ?_⟩
  rw [h1]
  decide

/-- C3 (amended): when jurisdiction = EP the app-level substitution replaces
every occurrence of the exact lowercase substring `estoppel` (so the output
never contains that lowercase substring), but it is case-sensitive and not
whole-word: `Estoppel` survives unchanged and `estoppels` is rewritten
inside the larger word.  The case-insensitive whole-word variant exists in
report_guardrails (replacing `Estoppel`, leaving `estoppels` alone) but is
shadowed and unused in the report path. -/
theorem sanitize_ep_language_amended (l : List Char) :
    containsSub epTarget (sanitize_ep_language l (strL "EP")) = false ∧
    sanitize_ep_language (strL "Estoppel") (strL "EP") = strL "Estoppel" ∧
    sanitize_ep_language (strL "estoppels") (strL "EP") = epReplacement ++ strL "s" ∧
    sanitize_ep_language_guardrails (strL "Estoppel") (strL "EP") = epReplacement ∧
    sanitize_ep_language_guardrails (strL "estoppels") (strL "EP") = strL "estoppels" := by
  refine ⟨?_, ?_, ?_, ?_, ?_⟩
  · rw [sanitize_ep_language, if_pos rfl]
    exact pyReplace_ep_no_target l.length l rfl
  · rw [sanitize_ep_language, if_pos rfl]
    exact pyReplace_no_occurrence epTarget_ne_nil _ (by decide)
  · rw [sanitize_ep_language, if_pos rfl]
    exact app_estoppels_eval
  · unfold sanitize_ep_language_guardrails
    rw [if_neg (by decide), if_pos (by decide)]
    exact guardrails_Estoppel_eval
  · unfold sanitize_ep_language_guardrails
    rw [if_neg (by decide), if_pos (by decide)]
    exact guardrails_estoppels_eval

/-! ### C1: exactly one valid token per surviving line -/

theorem cleanLinesLoop_spec (keys : List Tok) :
    ∀ lines seen ln, ln ∈ cleanLinesLoop keys lines seen →
      (findTokens ln).length = 1 ∧
      (findTokens ln).all (fun t => tokMemB t keys) = true := by
  intro lines
  induction lines with
  | nil =>
    intro seen ln h
    simp [cleanLinesLoop] at h
  | cons l rest ih =>
    intro seen ln h
    rw [cleanLinesLoop] at h
    by_cases h1 : containsSub omittedMark l = true
    · rw [if_pos h1] at h
      exact ih seen ln h
    · rw [if_neg h1] at h
      by_cases h2 : containsSub missingMark l = true
      · rw [if_pos h2] at h
        exact ih seen ln h
      · rw [if_neg h2] at h
        by_cases h3 : containsSub invalidMark l = true
        · rw [if_pos h3] at h
          exact ih seen ln h
        · rw [if_neg h3] at h
          cases hft : findTokens l with
          | nil =>
            rw [hft] at h
            exact ih seen ln h
          | cons t ts =>
            rw [hft] at h
            dsimp only at h
            by_cases h4 : ts ≠ []
            · rw [if_pos h4] at h
              exact ih seen ln h
            · rw [if_neg h4] at h
              by_cases h5 : ¬ tokMemB t keys = true
              · rw [if_pos h5] at h
                exact ih seen ln h
              · rw [if_neg h5] at h
                by_cases h6 : l ∈ seen
                · rw [if_pos h6] at h
                  exact ih seen ln h
                · rw [if_neg h6] at h
                  rcases List.mem_cons.mp h with h | h
                  · subst h
                    have hts : ts = [] := by
                      by_contra hc
                      exact h4 hc
                    subst hts
                    rw [hft]
                    refine ⟨rfl, ?_⟩
                    simp only [List.all_cons, List.all_nil, Bool.and_true]
                    exact of_not_not h5
                  · exact ih (l :: seen) ln h

/-- C1: a line survives the final per-section filter only if it contains
exactly one bracketed evidence token and that token is a key of the token
index; a line whose token count differs from one — in particular a sentence
with two or more tokens — is dropped entirely, never trimmed. -/
theorem clean_lines_single_valid_token
    (lines : List (List Char)) (keys : List Tok) (ln bad : List Char)
    (hln : ln ∈ clean_lines lines keys)
    (hbad : (findTokens bad).length ≠ 1) :
    (findTokens ln).length = 1 ∧
    (findTokens ln).all (fun t => tokMemB t keys) = true ∧
    bad ∉ clean_lines lines keys := by
  obtain ⟨hl1, hl2⟩ := cleanLinesLoop_spec keys lines [] ln hln
  refine ⟨hl1, hl2, ?_⟩
  intro hmem
  exact hbad (cleanLinesLoop_spec keys lines [] bad hmem).1

/-- C1 witness: the theorem applied to a concrete pair of generated lines —
one with a single valid token (kept) and one with two tokens, both valid
individually (dropped entirely). -/
theorem clean_lines_single_valid_token_witness :
    (findTokens (strL "Grant recorded. [EVT#1]")).length = 1 ∧
    (findTokens (strL "Grant recorded. [EVT#1]")).all
      (fun t => tokMemB t [⟨TokType.evt, ['1']⟩, ⟨TokType.cit, ['2']⟩]) = true ∧
    strL "Granted [EVT#1] and cited [CIT#2]." ∉
      clean_lines [strL "Grant recorded. [EVT#1]", strL "Granted [EVT#1] and cited [CIT#2]."]
        [⟨TokType.evt, ['1']⟩, ⟨TokType.cit, ['2']⟩] :=
  clean_lines_single_valid_token
    [strL "Grant recorded. [EVT#1]", strL "Granted [EVT#1] and cited [CIT#2]."]
    [⟨TokType.evt, ['1']⟩, ⟨TokType.cit, ['2']⟩]
    (strL "Grant recorded. [EVT#1]")
    (strL "Granted [EVT#1] and cited [CIT#2].")
    (by decide) (by decide)

/-! ### C9: helper lemmas for placeholder freedom -/

theorem cleanLinesLoop_no_markers (keys : List Tok) :
    ∀ lines seen ln, ln ∈ cleanLinesLoop keys lines seen →
      containsSub omittedMark ln = false ∧
      containsSub missingMark ln = false ∧
      containsSub invalidMark ln = false := by
  intro lines
  induction lines with
  | nil =>
    intro seen ln h
    simp [cleanLinesLoop] at h
  | cons l rest ih =>
    intro seen ln h
    rw [cleanLinesLoop] at h
    by_cases h1 : containsSub omittedMark l = true
    · rw [if_pos h1] at h
      exact ih seen ln h
    · rw [if_neg h1] at h
      by_cases h2 : containsSub missingMark l = true
      · rw [if_pos h2] at h
        exact ih seen ln h
      · rw [if_neg h2] at h
        by_cases h3 : containsSub invalidMark l = true
        · rw [if_pos h3] at h
          exact ih seen ln h
        · rw [if_neg h3] at h
          cases hft : findTokens l with
          | nil =>
            rw [hft] at h
            exact ih seen ln h
          | cons t ts =>
            rw [hft] at h
            dsimp only at h
            by_cases h4 : ts ≠ []
            · rw [if_pos h4] at h
              exact ih seen ln h
            · rw [if_neg h4] at h
              by_cases h5 : ¬ tokMemB t keys = true
              · rw [if_pos h5] at h
                exact ih seen ln h
              · rw [if_neg h5] at h
                by_cases h6 : l ∈ seen
                · rw [if_pos h6] at h
                  exact ih seen ln h
                · rw [if_neg h6] at h
                  rcases List.mem_cons.mp h with h | h
                  · subst h
                    exact ⟨Bool.not_eq_true _ ▸ Bool.of_not_eq_true h1,
                      Bool.not_eq_true _ ▸ Bool.of_not_eq_true h2,
                      Bool.not_eq_true _ ▸ Bool.of_not_eq_true h3⟩
                  · exact ih (l :: seen) ln h

theorem markerCharFree_spec {s : List Char} (h : markerCharFree s = true) :
    ∀ c ∈ s, ¬ (c = '(' ∨ c = '[') := by
  intro c hc
  have := List.all_eq_true.mp h c hc
  simpa using this

theorem mem_joinSep {c : Char} {sep : List Char} :
    ∀ ws, c ∈ joinSep sep ws → c ∈ sep ∨ ∃ w ∈ ws, c ∈ w := by
  intro ws
  induction ws with
  | nil => intro h; simp [joinSep] at h
  | cons w ws ih =>
    cases ws with
    | nil =>
      intro h
      simp only [joinSep] at h
      exact Or.inr ⟨w, List.mem_cons_self _ _, h⟩
    | cons w' ws' =>
      intro h
      have hj : joinSep sep (w :: w' :: ws') = w ++ (sep ++ joinSep sep (w' :: ws')) := by
        simp [joinSep]
      rw [hj] at h
      rcases List.mem_append.mp h with h | h
      · exact Or.inr ⟨w, List.mem_cons_self _ _, h⟩
      · rcases List.mem_append.mp h with h | h
        · exact Or.inl h
        · rcases ih h with h | ⟨v, hv, hcv⟩
          · exact Or.inl h
          · exact Or.inr ⟨v, List.mem_cons_of_mem w hv, hcv⟩

theorem joinSep_append_singleton (sep w : List Char) :
    ∀ ws, ws ≠ [] → joinSep sep (ws ++ [w]) = joinSep sep ws ++ (sep ++ w) := by
  intro ws
  induction ws with
  | nil => intro h; exact absurd rfl h
  | cons v vs ih =>
    intro _
    cases vs with
    | nil => simp [joinSep]
    | cons v' vs' =>
      have h1 : joinSep sep ((v :: v' :: vs') ++ [w])
          = v ++ sep ++ joinSep sep ((v' :: vs') ++ [w]) := by
        simp [joinSep]
      rw [h1, ih (by simp)]
      simp [joinSep, List.append_assoc]

theorem bracket_not_mem_natDigits (k : Nat) : '[' ∉ natDigits k := by
  intro h
  exact absurd (natDigits_all_digit k '[' h) (by decide)

theorem paren_not_mem_natDigits (k : Nat) : '(' ∉ natDigits k := by
  intro h
  exact absurd (natDigits_all_digit k '(' h) (by decide)

theorem bracket_marker_not_in (p' pre tokbody : List Char)
    (hpre : '[' ∉ pre) (hbody : '[' ∉ tokbody)
    (hnp : isPrefixB ('[' :: p') ('[' :: tokbody) = false) :
    containsSub ('[' :: p') (pre ++ '[' :: tokbody) = false := by
  by_contra hcon
  have hcon' : containsSub ('[' :: p') (pre ++ '[' :: tokbody) = true := by
    cases hb : containsSub ('[' :: p') (pre ++ '[' :: tokbody)
    · exact absurd hb hcon
    · rfl
  rcases containsSub_append_cases pre ('[' :: tokbody) (by simp) hcon' with
    h | h | ⟨k, hk0, hkl, hks, _⟩
  · exact hpre (containsSub_head_mem h)
  · simp only [containsSub, Bool.or_eq_true] at h
    rcases h with h | h
    · rw [hnp] at h
      exact Bool.false_ne_true h
    · exact hbody (containsSub_head_mem h)
  · obtain ⟨m, hm⟩ := Nat.exists_eq_succ_of_ne_zero (by omega : k ≠ 0)
    rw [hm] at hks
    rw [List.take_succ_cons] at hks
    exact hpre (isSuffixB_subset hks '[' (List.mem_cons_self _ _))

theorem mapping_desc_clean {code desc : List Char} {effs : List (List Char)}
    (h : EVENT_CODE_MAPPING_find code = some (desc, effs)) :
    ∀ c ∈ desc, ¬ (c = '(' ∨ c = '[') := by
  unfold EVENT_CODE_MAPPING_find at h
  split_ifs at h <;> simp at h <;>
    (obtain ⟨h1, h2⟩ := h
     subst h1
     decide)

theorem riskLabel_clean (k : List Char) : ∀ c ∈ riskLabel k, ¬ (c = '(' ∨ c = '[') := by
  unfold riskLabel
  split_ifs <;> decide

theorem digit_not_marker {c : Char} (h : c.isDigit = true) : ¬ (c = '(' ∨ c = '[') := by
  intro hc
  rcases hc with hc | hc <;> (subst hc; exact absurd h (by decide))

theorem sep_dash_clean : ∀ c ∈ strL " – ", ¬ (c = '(' ∨ c = '[') := by decide

theorem token_line_markers_free (pre tokbody : List Char)
    (hpre : ∀ c ∈ pre, ¬ (c = '(' ∨ c = '['))
    (hbody : ∀ c ∈ tokbody, ¬ (c = '(' ∨ c = '['))
    (hnpM : isPrefixB (strL "MISSING]") tokbody = false)
    (hnpI : isPrefixB (strL "INVALID_") tokbody = false) :
    containsSub omittedFullMark (pre ++ '[' :: tokbody) = false ∧
    containsSub missingMark (pre ++ '[' :: tokbody) = false ∧
    containsSub invalidMark (pre ++ '[' :: tokbody) = false := by
  have hpre' : '[' ∉ pre := fun h => hpre '[' h (Or.inr rfl)
  have hbody' : '[' ∉ tokbody := fun h => hbody '[' h (Or.inr rfl)
  refine ⟨?_, ?_, ?_⟩
  · by_contra hcon
    have hcon' : containsSub omittedFullMark (pre ++ '[' :: tokbody) = true := by
      cases hb : containsSub omittedFullMark (pre ++ '[' :: tokbody)
      · exact absurd hb hcon
      · rfl
    have hsh : omittedFullMark = '(' :: strL "Omitted pending source)" := rfl
    rw [hsh] at hcon'
    have hmem := containsSub_head_mem hcon'
    rcases List.mem_append.mp hmem with hmem | hmem
    · exact hpre '(' hmem (Or.inl rfl)
    · rcases List.mem_cons.mp hmem with hmem | hmem
      · exact absurd hmem (by decide)
      · exact hbody '(' hmem (Or.inl rfl)
  · have hsh : missingMark = '[' :: strL "MISSING]" := rfl
    rw [hsh]
    refine bracket_marker_not_in _ pre tokbody hpre' hbody' ?_
    simp only [isPrefixB, Bool.and_eq_true]
    simp [hnpM]
  · have hsh : invalidMark = '[' :: strL "INVALID_" := rfl
    rw [hsh]
    refine bracket_marker_not_in _ pre tokbody hpre' hbody' ?_
    simp only [isPrefixB, Bool.and_eq_true]
    simp [hnpI]

theorem evt_tokbody_clean (k : Nat) :
    ∀ c ∈ strL "EVT#" ++ (natDigits k ++ strL "]"), ¬ (c = '(' ∨ c = '[') := by
  have hE : ∀ c ∈ strL "EVT#", ¬ (c = '(' ∨ c = '[') := by decide
  have hR : ∀ c ∈ strL "]", ¬ (c = '(' ∨ c = '[') := by decide
  intro c hc
  rcases List.mem_append.mp hc with hc | hc
  · exact hE c hc
  · rcases List.mem_append.mp hc with hc | hc
    · exact digit_not_marker (natDigits_all_digit k c hc)
    · exact hR c hc

theorem cit_tokbody_clean (k : Nat) :
    ∀ c ∈ strL "CIT#" ++ (natDigits k ++ strL "]"), ¬ (c = '(' ∨ c = '[') := by
  have hC : ∀ c ∈ strL "CIT#", ¬ (c = '(' ∨ c = '[') := by decide
  have hR : ∀ c ∈ strL "]", ¬ (c = '(' ∨ c = '[') := by decide
  intro c hc
  rcases List.mem_append.mp hc with hc | hc
  · exact hC c hc
  · rcases List.mem_append.mp hc with hc | hc
    · exact digit_not_marker (natDigits_all_digit k c hc)
    · exact hR c hc

theorem evt_tokbody_no_missing (k : Nat) :
    isPrefixB (strL "MISSING]") (strL "EVT#" ++ (natDigits k ++ strL "]")) = false := by
  have h1 : strL "MISSING]" = 'M' :: strL "ISSING]" := rfl
  have h2 : strL "EVT#" ++ (natDigits k ++ strL "]")
      = 'E' :: (strL "VT#" ++ (natDigits k ++ strL "]")) := rfl
  rw [h1, h2]
  simp [isPrefixB]

theorem evt_tokbody_no_invalid (k : Nat) :
    isPrefixB (strL "INVALID_") (strL "EVT#" ++ (natDigits k ++ strL "]")) = false := by
  have h1 : strL "INVALID_" = 'I' :: strL "NVALID_" := rfl
  have h2 : strL "EVT#" ++ (natDigits k ++ strL "]")
      = 'E' :: (strL "VT#" ++ (natDigits k ++ strL "]")) := rfl
  rw [h1, h2]
  simp [isPrefixB]

theorem cit_tokbody_no_missing (k : Nat) :
    isPrefixB (strL "MISSING]") (strL "CIT#" ++ (natDigits k ++ strL "]")) = false := by
  have h1 : strL "MISSING]" = 'M' :: strL "ISSING]" := rfl
  have h2 : strL "CIT#" ++ (natDigits k ++ strL "]")
      = 'C' :: (strL "IT#" ++ (natDigits k ++ strL "]")) := rfl
  rw [h1, h2]
  simp [isPrefixB]

theorem cit_tokbody_no_invalid (k : Nat) :
    isPrefixB (strL "INVALID_") (strL "CIT#" ++ (natDigits k ++ strL "]")) = false := by
  have h1 : strL "INVALID_" = 'I' :: strL "NVALID_" := rfl
  have h2 : strL "CIT#" ++ (natDigits k ++ strL "]")
      = 'C' :: (strL "IT#" ++ (natDigits k ++ strL "]")) := rfl
  rw [h1, h2]
  simp [isPrefixB]

theorem pivotEffectStr_clean (e : EventD)
    (he : (e.effects.getD []).all markerCharFree = true) :
    ∀ ch ∈ pivotEffectStr e, ¬ (ch = '(' ∨ ch = '[') := by
  have hrec : ∀ c ∈ strL "event recorded", ¬ (c = '(' ∨ c = '[') := by decide
  have hsepc : ∀ c ∈ strL "; ", ¬ (c = '(' ∨ c = '[') := by decide
  have hsp : ∀ c ∈ strL " ", ¬ (c = '(' ∨ c = '[') := by decide
  intro ch hch
  simp only [pivotEffectStr] at hch
  split at hch
  · exact hrec ch hch
  · rcases mem_joinSep _ hch with hs | ⟨w, hw, hcw⟩
    · exact hsepc ch hs
    · rcases List.mem_map.mp hw with ⟨eff, heff, hfw⟩
      cases hfind : EVENT_CODE_MAPPING_find (e.code.getD (strL "?")) with
      | some p =>
        obtain ⟨desc, effs⟩ := p
        rw [hfind] at hfw
        dsimp only at hfw
        rw [← hfw] at hcw
        exact mapping_desc_clean hfind ch hcw
      | none =>
        rw [hfind] at hfw
        dsimp only at hfw
        rw [← hfw] at hcw
        rcases mem_pyReplace _ hcw with hm | hm
        · exact markerCharFree_spec (List.all_eq_true.mp he eff heff) ch hm
        · exact hsp ch hm

theorem pivot_line_decomp (events : List EventD) (idx : Nat) (e : EventD) :
    pivotLineOf events idx e
      = (e.date.getD (strL "YYYY-MM-DD") ++ strL " – " ++ e.code.getD (strL "?")
          ++ strL " – " ++ pivotEffectStr e ++ strL " – ")
        ++ '[' :: (strL "EVT#"
            ++ (natDigits ((findTokenIdx (e.code.getD (strL "?"))
                  (e.date.getD (strL "YYYY-MM-DD")) 0 events).getD idx)
              ++ strL "]")) := by
  have hglue : strL " – [EVT#" = strL " – " ++ ('[' :: strL "EVT#") := rfl
  simp only [pivotLineOf, pivotEffectStr]
  rw [hglue]
  simp [List.append_assoc]

theorem pivot_line_markers_free (events : List EventD) (idx : Nat) (e : EventD)
    (hclean : eventFieldsClean e = true) :
    containsSub omittedFullMark (pivotLineOf events idx e) = false ∧
    containsSub missingMark (pivotLineOf events idx e) = false ∧
    containsSub invalidMark (pivotLineOf events idx e) = false := by
  have hparts : markerCharFree (e.date.getD (strL "YYYY-MM-DD")) = true ∧
      markerCharFree (e.code.getD (strL "?")) = true ∧
      (e.effects.getD []).all markerCharFree = true := by
    simpa [eventFieldsClean, Bool.and_eq_true, and_assoc] using hclean
  obtain ⟨hd, hc, he⟩ := hparts
  rw [pivot_line_decomp]
  refine token_line_markers_free _ _ ?_ (evt_tokbody_clean _)
    (evt_tokbody_no_missing _) (evt_tokbody_no_invalid _)
  intro ch hch
  simp only [List.append_assoc, List.mem_append] at hch
  rcases hch with hch | hch | hch | hch | hch | hch
  · exact markerCharFree_spec hd ch hch
  · exact sep_dash_clean ch hch
  · exact markerCharFree_spec hc ch hch
  · exact sep_dash_clean ch hch
  · exact pivotEffectStr_clean e he ch hch
  · exact sep_dash_clean ch hch

theorem ranked_head_part_clean (idx : Nat) (cid : List Char)
    (hid : markerCharFree cid = true) :
    ∀ ch ∈ natDigits idx ++ strL ". " ++ cid, ¬ (ch = '(' ∨ ch = '[') := by
  have hdot : ∀ c ∈ strL ". ", ¬ (c = '(' ∨ c = '[') := by decide
  intro ch hch
  rcases List.mem_append.mp hch with hch | hch
  · rcases List.mem_append.mp hch with hch | hch
    · exact digit_not_marker (natDigits_all_digit idx ch hch)
    · exact hdot ch hch
  · exact markerCharFree_spec hid ch hch

theorem ranked_generic (parts2 : List (List Char)) (tIdx : Nat)
    (hne : parts2 ≠ [])
    (hparts : ∀ w ∈ parts2, ∀ ch ∈ w, ¬ (ch = '(' ∨ ch = '[')) :
    containsSub omittedFullMark
      (joinSep (strL " – ") (parts2 ++ [strL "[CIT#" ++ natDigits tIdx ++ strL "]"])) = false ∧
    containsSub missingMark
      (joinSep (strL " – ") (parts2 ++ [strL "[CIT#" ++ natDigits tIdx ++ strL "]"])) = false ∧
    containsSub invalidMark
      (joinSep (strL " – ") (parts2 ++ [strL "[CIT#" ++ natDigits tIdx ++ strL "]"])) = false := by
  have hdec : joinSep (strL " – ") (parts2 ++ [strL "[CIT#" ++ natDigits tIdx ++ strL "]"])
      = (joinSep (strL " – ") parts2 ++ strL " – ")
        ++ '[' :: (strL "CIT#" ++ (natDigits tIdx ++ strL "]")) := by
    rw [joinSep_append_singleton _ _ _ hne]
    have hglue : strL "[CIT#" = '[' :: strL "CIT#" := rfl
    rw [hglue]
    simp [List.append_assoc]
  rw [hdec]
  refine token_line_markers_free _ _ ?_ (cit_tokbody_clean _)
    (cit_tokbody_no_missing _) (cit_tokbody_no_invalid _)
  intro ch hch
  rcases List.mem_append.mp hch with hch | hch
  · rcases mem_joinSep _ hch with hs | ⟨w, hw, hcw⟩
    · exact sep_dash_clean ch hs
    · exact hparts w hw ch hcw
  · exact sep_dash_clean ch hch

theorem ranked_line_markers_free (idx : Nat) (c : CitationD)
    (hclean : citationFieldsClean c = true) :
    containsSub omittedFullMark (rankedLineOf idx c) = false ∧
    containsSub missingMark (rankedLineOf idx c) = false ∧
    containsSub invalidMark (rankedLineOf idx c) = false := by
  have hparts : markerCharFree (pyOrStr c.id (strL "CIT:?")) = true ∧
      markerCharFree (pyOrStr c.closest_limits (c.limitations.getD [])) = true ∧
      markerCharFree (pyOrStr c.workaround []) = true := by
    simpa [citationFieldsClean, Bool.and_eq_true, and_assoc] using hclean
  obtain ⟨hid, hlim, hwk⟩ := hparts
  simp only [rankedLineOf]
  refine ranked_generic _ _ ?_ ?_
  · split_ifs <;> simp
  · intro w hw ch hcw
    have hw4 : w = natDigits idx ++ strL ". " ++ pyOrStr c.id (strL "CIT:?")
        ∨ w = riskLabel (c.kind.getD (strL "bibliographic"))
        ∨ w = pyOrStr c.closest_limits (c.limitations.getD [])
        ∨ w = pyOrStr c.workaround [] := by
      split_ifs at hw <;>
        simp only [List.mem_append, List.mem_cons, List.mem_singleton,
          List.not_mem_nil, or_false] at hw <;>
        tauto
    rcases hw4 with rfl | rfl | rfl | rfl
    · exact ranked_head_part_clean idx _ hid ch hcw
    · exact riskLabel_clean _ ch hcw
    · exact markerCharFree_spec hlim ch hcw
    · exact markerCharFree_spec hwk ch hcw

theorem mem_pivotLines (events : List EventD) :
    ∀ sel i ln, ln ∈ pivotLines events i sel →
      ∃ e ∈ sel, ∃ j, ln = pivotLineOf events j e := by
  intro sel
  induction sel with
  | nil =>
    intro i ln h
    simp [pivotLines] at h
  | cons e rest ih =>
    intro i ln h
    simp only [pivotLines] at h
    rcases List.mem_cons.mp h with h | h
    · exact ⟨e, List.mem_cons_self _ _, i, h⟩
    · obtain ⟨e', he', j, hj⟩ := ih (i + 1) ln h
      exact ⟨e', List.mem_cons_of_mem _ he', j, hj⟩

theorem mem_rankedLines :
    ∀ sel i ln, ln ∈ rankedLines i sel → ∃ c ∈ sel, ∃ j, ln = rankedLineOf j c := by
  intro sel
  induction sel with
  | nil =>
    intro i ln h
    simp [rankedLines] at h
  | cons c rest ih =>
    intro i ln h
    simp only [rankedLines] at h
    rcases List.mem_cons.mp h with h | h
    · exact ⟨c, List.mem_cons_self _ _, i, h⟩
    · obtain ⟨c', hc', j, hj⟩ := ih (i + 1) ln h
      exact ⟨c', List.mem_cons_of_mem _ hc', j, hj⟩

theorem top_pivotal_selection_subset (nowYear : Nat)
    (fuzzy : List Char → Option PDate) (events : List EventD) (e : EventD)
    (h : e ∈ top_pivotal_selection nowYear fuzzy events) :
    e ∈ events.map (normalize_event nowYear fuzzy) := by
  simp only [top_pivotal_selection] at h
  split_ifs at h
  · simp at h
  · exact mem_insSort.mp (List.take_subset _ _ (mem_insSort.mp h))

theorem ranked_citations_selection_subset (cs : List CitationD) (c : CitationD)
    (h : c ∈ ranked_citations_selection cs) : c ∈ cs := by
  rw [ranked_citations_selection] at h
  exact mem_insSort.mp (List.take_subset _ _ h)

/-- C9: no finalized section line — neither the survivors of the final
per-section token filter (src/app.py 1443-1465) nor the appended
pivotal-events and ranked-citations blocks (src/app.py 1490-1518) —
contains the placeholder "(Omitted pending source)" or a residual
[MISSING]/[INVALID_ marker, provided the extracted event and citation
fields interpolated into the deterministic blocks are themselves free of
the marker-opening characters. The filter drops any line carrying a
marker outright, and each block line is assembled from clean fields, so
too little grounded content shortens a section instead of padding it. -/
theorem section_output_no_placeholders
    (key : SectionKey) (lines : List (List Char)) (keys : List Tok)
    (nowYear : Nat) (fuzzy : List Char → Option PDate)
    (events : List EventD) (citations : List CitationD) (ln : List Char)
    (hev : (events.map (normalize_event nowYear fuzzy)).all eventFieldsClean = true)
    (hcit : citations.all citationFieldsClean = true)
    (hln : ln ∈ section_output_lines key lines keys nowYear fuzzy events citations) :
    containsSub omittedFullMark ln = false ∧
    containsSub missingMark ln = false ∧
    containsSub invalidMark ln = false := by
  have hOmPre : isPrefixB omittedMark omittedFullMark = true := by decide
  rw [section_output_lines] at hln
  rcases List.mem_append.mp hln with hAB | hC
  · rcases List.mem_append.mp hAB with hA | hB
    · obtain ⟨l0, hl0, rfl⟩ := List.mem_map.mp hA
      rw [clean_lines] at hl0
      obtain ⟨hm1, hm2, hm3⟩ := cleanLinesLoop_no_markers keys lines [] l0 hl0
      have hded1 : containsSub omittedMark (deduplicate_line l0) = false :=
        not_containsSub_deduplicate_line (by decide) (by decide) hm1
      refine ⟨?_, not_containsSub_deduplicate_line (by decide) (by decide) hm2,
        not_containsSub_deduplicate_line (by decide) (by decide) hm3⟩
      cases hb : containsSub omittedFullMark (deduplicate_line l0) with
      | false => rfl
      | true =>
        have hlift := containsSub_of_prefix_pat hOmPre hb
        rw [hded1] at hlift
        exact absurd hlift (by decide)
    · simp only [topBlockLines, render_top_pivotal_events] at hB
      split_ifs at hB
      · simp at hB
      · simp at hB
      · rcases List.mem_cons.mp hB with rfl | hB
        · exact ⟨by decide, by decide, by decide⟩
        · have hmem := (List.mem_filter.mp hB).1
          obtain ⟨e, hesel, j, rfl⟩ := mem_pivotLines events _ _ _ hmem
          exact pivot_line_markers_free events j e
            (List.all_eq_true.mp hev e
              (top_pivotal_selection_subset nowYear fuzzy events e hesel))
      · simp at hB
  · simp only [rankedBlockLines, render_ranked_citations] at hC
    split_ifs at hC
    · simp at hC
    · simp at hC
    · rcases List.mem_cons.mp hC with rfl | hC
      · exact ⟨by decide, by decide, by decide⟩
      · have hmem := (List.mem_filter.mp hC).1
        obtain ⟨c', hc', j, rfl⟩ := mem_rankedLines _ _ _ hmem
        exact ranked_line_markers_free j c'
          (List.all_eq_true.mp hcit c' (ranked_citations_selection_subset citations c' hc'))
    · rcases List.mem_cons.mp hC with rfl | hC
      · exact ⟨by decide, by decide, by decide⟩
      · have hmem := (List.mem_filter.mp hC).1
        obtain ⟨c', hc', j, rfl⟩ := mem_rankedLines _ _ _ hmem
        exact ranked_line_markers_free j c'
          (List.all_eq_true.mp hcit c' (ranked_citations_selection_subset citations c' hc'))
    · simp at hC

theorem section_output_no_placeholders_witness :
    (([({ date := some (strL "20161209"), code := some (strL "INTG"), desc := none,
          effects := none, path := none } : EventD)]).map
        (normalize_event 2025 (fun _ => none))).all eventFieldsClean = true ∧
    ([] : List CitationD).all citationFieldsClean = true ∧
    strL "Top 3 pivotal events:" ∈ section_output_lines SectionKey.timeline []
      [{ ty := TokType.evt, digits := strL "1" }] 2025 (fun _ => none)
      [{ date := some (strL "20161209"), code := some (strL "INTG"), desc := none,
         effects := none, path := none }] [] ∧
    containsSub omittedFullMark (strL "Top 3 pivotal events:") = false ∧
    containsSub missingMark (strL "Top 3 pivotal events:") = false ∧
    containsSub invalidMark (strL "Top 3 pivotal events:") = false :=
  ⟨by decide, by decide, by decide,
   section_output_no_placeholders SectionKey.timeline []
     [{ ty := TokType.evt, digits := strL "1" }] 2025 (fun _ => none)
     [{ date := some (strL "20161209"), code := some (strL "INTG"), desc := none,
        effects := none, path := none }] [] (strL "Top 3 pivotal events:")
     (by decide) (by decide) (by decide)⟩
